import Mathlib

/-!
Verification of the DevOpcua element-tree core (EPICS opcua device support).

Shallow embedding of:
  * `ElementTreeHelper::splitLastName` / `splitFirstName` (ElementTreeHelper.h),
    including the unguarded probe of `fullpath[sep-1]` — an out-of-bounds read
    when the examined separator sits at string position 0 — modelled by a
    distinguished `oob` result.
  * `ElementTree::nearestNode` / `ElementTree::addLeaf` (ElementTree.h) over a
    functional rose tree.
  * `DataElementLeaf::setIncomingEvent` (DataElementLeaf.cpp) with the
    spec-modelled `UpdateQueue::pushUpdate` (UpdateQueue.h is not part of the
    sources here).
  * `DataElementVertex::mapChildren` / `setIncomingEvent` / `getOutgoingData` /
    `updateDataInGenericValue` / `requestRecordProcessing`
    (DataElementVertex.cpp), with weak-pointer child slots modelled as
    `Option` and an unchecked dereference of an expired child modelled as the
    `none` outcome.
-/

namespace DevOpcua

/-! ## Path splitting (ElementTreeHelper.h) -/

/-- Result of running one of the path-splitting routines.  `oob` marks the
undefined behaviour of reading one character left of index 0 (the code probes
`fullpath[sep-1]` without first checking `sep != 0`).  `noFuel` is a modelling
artifact of the bounded loop translation and is never reached with the fuel
supplied by the wrappers. -/
inductive SplitRes (α : Type) where
  | ok (res : α)
  | oob
  | noFuel
deriving Repr, DecidableEq

/-- Whether index `i` is within an optional upper bound (`none` meaning
unbounded, as for the wrapped `size_t` position `npos`). -/
def withinBound (i : Nat) (bound : Option Nat) : Bool :=
  match bound with
  | none => true
  | some b => i ≤ b

/-- Model of `std::string::find_last_of(c, pos)` on a character list: the
largest index `i ≤ pos` (unbounded when `bound = none`) with `s[i] = c`. -/
def findLastOfWithin (s : List Char) (c : Char) (bound : Option Nat) : Option Nat :=
  (List.range s.length).foldl
    (fun acc i => if s.get? i = some c ∧ withinBound i bound = true then some i else acc) none

/-- Model of `std::string::find_last_of(c)` (search the whole string). -/
def find_last_of (s : List Char) (c : Char) : Option Nat :=
  findLastOfWithin s c none

/-- Model of `std::string::find_first_of(c, pos)`: the least index `i ≥ start`
with `s[i] = c`. -/
def findFirstOfFrom (s : List Char) (c : Char) (start : Nat) : Option Nat :=
  (List.range s.length).foldr
    (fun i acc => if s.get? i = some c ∧ start ≤ i then some i else acc) none

/-- The scan loop of `ElementTreeHelper::splitLastName`:

    while (sep != npos && fullpath[sep-1] == BACKSLASH) \x7b
        fullpath.erase(--sep, 1);
        sep = fullpath.find_last_of(separator, --sep);
    \x7d

When `sep = 0` the probe `fullpath[sep-1]` reads out of bounds (`oob`).
After erasing, `sep` has already been decremented once; the second decrement
underflows to `npos` when it hits 0 (a `size_t` wrap), which makes the next
search unbounded — modelled by the `none` bound. -/
def splitLastLoop (sepc : Char) : Nat → List Char → Option Nat → SplitRes (List Char × Option Nat)
  | 0, _, _ => .noFuel
  | _ + 1, s, none => .ok (s, none)
  | fuel + 1, s, some i =>
    if i = 0 then .oob
    else if s.get? (i - 1) = some '\\' then
      let s1 := s.eraseIdx (i - 1)
      let bound : Option Nat := if i - 1 = 0 then none else some (i - 1 - 1)
      splitLastLoop sepc fuel s1 (findLastOfWithin s1 sepc bound)
    else .ok (s, some i)

/-- An empty split-off name is normalised to the reserved root label. -/
def normalizeRootName (l : List Char) : List Char :=
  if l = [] then "<ROOT>".toList else l

/-- Model of `ElementTreeHelper::splitLastName` (ElementTreeHelper.h, lines
61-80).  Returns the pair (last name, remaining path); the in-out string
parameter of the C++ function is the second component. -/
def splitLastName (s : List Char) (sepc : Char) : SplitRes (List Char × List Char) :=
  match splitLastLoop sepc (s.length + 1) s (find_last_of s sepc) with
  | .noFuel => .noFuel
  | .oob => .oob
  | .ok (s1, none) => .ok (normalizeRootName s1, [])
  | .ok (s1, some i) => .ok (normalizeRootName (s1.drop (i + 1)), s1.take i)

/-- The scan loop of `ElementTreeHelper::splitFirstName`:

    while (sep != npos && fullpath[sep-1] == BACKSLASH) \x7b
        fullpath.erase(sep-1, 1);
        sep = fullpath.find_first_of(separator, sep);
    \x7d

Again `sep = 0` makes the probe read out of bounds. -/
def splitFirstLoop (sepc : Char) : Nat → List Char → Option Nat → SplitRes (List Char × Option Nat)
  | 0, _, _ => .noFuel
  | _ + 1, s, none => .ok (s, none)
  | fuel + 1, s, some i =>
    if i = 0 then .oob
    else if s.get? (i - 1) = some '\\' then
      let s1 := s.eraseIdx (i - 1)
      splitFirstLoop sepc fuel s1 (findFirstOfFrom s1 sepc i)
    else .ok (s, some i)

/-- Model of `ElementTreeHelper::splitFirstName` (ElementTreeHelper.h, lines
90-107).  Returns the pair (first name, remaining path). -/
def splitFirstName (s : List Char) (sepc : Char) : SplitRes (List Char × List Char) :=
  match splitFirstLoop sepc (s.length + 1) s (findFirstOfFrom s sepc 0) with
  | .noFuel => .noFuel
  | .oob => .oob
  | .ok (s1, none) => .ok (s1, [])
  | .ok (s1, some i) => .ok (s1.take i, s1.drop (i + 1))

end DevOpcua

namespace DevOpcua

/-! ## The element tree (ElementTree.h) -/

/-- Functional model of the tree of elements: a node carries its name, the
`isLeaf` discriminator of the element class, and the ordered child list (the
`std::vector` of weak pointers held by a structural node).  Parent pointers
of the C++ representation are implicit in the nesting. -/
inductive ETree : Type where
  | node (nm : String) (leafFlag : Bool) (children : List ETree)
deriving Repr

/-- Element name (`E::name`). -/
def ETree.name : ETree → String
  | .node nm _ _ => nm

/-- Leaf discriminator (`E::isLeaf()`). -/
def ETree.isLeaf : ETree → Bool
  | .node _ b _ => b

/-- Child list of a structural node. -/
def ETree.children : ETree → List ETree
  | .node _ _ cs => cs

/-- Model of `E::findChild(name)` per the template contract documented in
ElementTree.h: the first child whose name matches.  A leaf element has no
child container, so lookup on a leaf finds nothing. -/
def findChild (t : ETree) (nm : String) : Option ETree :=
  if t.isLeaf then none else t.children.find? (fun c => c.name == nm)

/-- The two `std::runtime_error` conditions thrown by `ElementTree::addLeaf`:
`leafExists nm` models "cannot add leaf to existing leaf nm", `rootExists`
models "root node does already exist". -/
inductive AddErr where
  | leafExists (nm : String)
  | rootExists
deriving Repr, DecidableEq

/-- The bottom-up construction of the missing chain of structural nodes in
`addLeaf`: iterate the remaining path (leaf name already removed) from its
back, wrapping the element built so far in a fresh single-child vertex. -/
def buildChain (l : ETree) (segs : List String) : ETree :=
  segs.foldr (fun nm child => ETree.node nm false [child]) l

/-- Replace the first child carrying the given name (the child that
`findChild` located and that the C++ code mutates in place). -/
def replaceFirstNamed (nm : String) (c' : ETree) : List ETree → List ETree
  | [] => []
  | c :: cs => if c.name == nm then c' :: cs else c :: replaceFirstNamed nm c' cs

/-- Rebuild a node with the first child named `nm` replaced. -/
def setChild (t : ETree) (nm : String) (c' : ETree) : ETree :=
  .node t.name t.isLeaf (replaceFirstNamed nm c' t.children)

/-- The walk of `ElementTree::nearestNode` fused with the update part of
`ElementTree::addLeaf`, for a non-empty tree and a non-empty path: descend
while a child with the next segment name exists; at the deepest matched node
(the `branch`), first fail if it is a leaf, then fail with the duplicate-root
error when no segment remains, otherwise append the freshly built chain for
the remaining segments (`path.pop_back()` removes the leaf name first). -/
def addLeafGo (l : ETree) : ETree → List String → Except AddErr ETree
  | t, [] => if t.isLeaf then .error (.leafExists t.name) else .error .rootExists
  | t, nm :: rest =>
    match findChild t nm with
    | some c =>
      match addLeafGo l c rest with
      | .error e => .error e
      | .ok c' => .ok (setChild t nm c')
    | none =>
      if t.isLeaf then .error (.leafExists t.name)
      else .ok (ETree.node t.name t.isLeaf
                  (t.children ++ [buildChain l ((nm :: rest).dropLast)]))

/-- Model of `ElementTree::addLeaf` (ElementTree.h, lines 124-156).  The tree
state is the optional root (`rootElement` may be expired).  With an empty
path `nearestNode` returns no branch, so the leaf check is skipped and the
root check decides; with an empty tree and a non-empty path the chain hangs
below a freshly created anonymous "[ROOT]" vertex that becomes the root. -/
def addLeaf (root : Option ETree) (l : ETree) (fullpath : List String) : Except AddErr ETree :=
  match fullpath with
  | [] =>
    match root with
    | some _ => .error .rootExists
    | none => .ok l
  | nm :: rest =>
    match root with
    | none => .ok (ETree.node "[ROOT]" false [buildChain l ((nm :: rest).dropLast)])
    | some r => addLeafGo l r (nm :: rest)

/-- The node reached from `t` by following the path segments through
`findChild` (the same traversal `nearestNode` performs). -/
def getAt : ETree → List String → Option ETree
  | t, [] => some t
  | t, nm :: rest =>
    match findChild t nm with
    | some c => getAt c rest
    | none => none

/-- Kind of the node at a path: `some true` for a leaf there, `some false`
for a vertex, `none` when no node sits at that path. -/
def cp (t : ETree) (q : List String) : Option Bool :=
  (getAt t q).map ETree.isLeaf

/-- Kind-at-path for an optional root. -/
def cpo : Option ETree → List String → Option Bool
  | none, _ => none
  | some t, q => cp t q

/-- Left-biased combination used to describe how `addLeaf` extends the
path-to-kind map of a tree. -/
def fb (a b : Option Bool) : Option Bool :=
  match a with
  | some x => some x
  | none => b

/-- Kinds of the nodes freshly created by a successful `addLeafGo` call with
path `p`: every path that is a non-empty front part of `p` gains a node, a
leaf exactly at `p` itself and a vertex strictly before it. -/
def newNodeKind (p q : List String) : Option Bool :=
  if q ≠ [] ∧ q.isPrefixOf p = true then some (decide (q = p)) else none

/-- Kinds of the nodes freshly created by a successful top-level `addLeaf`
call, including the implicit root: when the tree was empty the node at the
root path is the leaf itself (empty path) or the anonymous vertex. -/
def newNodeKindRoot (p q : List String) : Option Bool :=
  if q = [] then some (decide (p = [])) else newNodeKind p q

/-- Pairwise distinct strings. -/
def namesNodup : List String → Bool
  | [] => true
  | n :: ns => ns.all (fun m => m != n) && namesNodup ns

/-- Pairwise distinct child names at a node (one chain per name). -/
def nodupNames (cs : List ETree) : Bool :=
  namesNodup (cs.map ETree.name)

mutual

/-- No node of the tree has two children with the same name. -/
def uniqb : ETree → Bool
  | .node _ _ cs => nodupNames cs && uniqbList cs

/-- `uniqb` for every tree in a list. -/
def uniqbList : List ETree → Bool
  | [] => true
  | c :: cs => uniqb c && uniqbList cs

end

/-! ## Values, reasons, connection state -/

/-- Model of `UaVariant`: an opaque scalar payload, a structured value
(`OpcUaType_ExtensionObject` carrying an encoding type id and its field
values, which the generic structure value exposes by index), or the empty
variant. -/
inductive UaVariant where
  | null
  | scalar (v : Nat)
  | extObj (typeId : Nat) (fields : List UaVariant)
deriving Repr

/-- Modelled from the spec: the `ProcessReason` classification of an update
(devOpcua.h is not under the provided sources); the constructors are the
reasons the spec lists (new data, read complete, read failure, connection
loss, write complete). -/
inductive ProcessReason where
  | incomingData
  | readComplete
  | readFailure
  | connectionLoss
  | writeComplete
deriving Repr, DecidableEq

/-- Modelled from the spec: the connection state supplied by the Item
collaborator (`ItemUaSdk::state()`, not under the provided sources);
`down` stands for any state other than `up` and `initialRead`. -/
inductive ConnectionStatus where
  | initialRead
  | up
  | down
deriving Repr, DecidableEq

/-! ## The leaf element (DataElementLeaf.cpp) and its update queue -/

/-- Model of `UpdateUaSdk = Update<UaVariant, OpcUa_StatusCode>`: timestamp,
reason, optional value and read status. -/
structure UpdateUaSdk where
  ts : Nat
  reason : ProcessReason
  value : Option UaVariant
  status : Nat
deriving Repr

/-- Modelled from the spec: `UpdateQueue::pushUpdate` (UpdateQueue.h is not
under the provided sources).  Per spec section 4.4: a bounded FIFO; at
capacity the oldest element is dropped to make room when `discardOldest`
holds, otherwise the incoming update itself is rejected; the returned flag
reports that the queue was empty immediately before the push (the
empty-to-non-empty transition that triggers the single processing
request). -/
def pushUpdate (q : List UpdateUaSdk) (capacity : Nat) (discardOldest : Bool)
    (u : UpdateUaSdk) : List UpdateUaSdk × Bool :=
  let wasFirst := q.isEmpty
  if capacity ≤ q.length then
    if discardOldest then (q.tail ++ [u], wasFirst) else (q, wasFirst)
  else (q ++ [u], wasFirst)

/-- State of a `DataElementLeaf` relevant to the incoming path: the cached
incoming value and the incoming queue with its configuration (taken from the
record connector's link info at construction). -/
structure DataElementLeaf where
  name : String
  incomingData : UaVariant
  incomingQueue : List UpdateUaSdk
  clientQueueSize : Nat
  discardOldest : Bool
deriving Repr

/-- Model of `DataElementLeaf::setIncomingEvent(reason, value)`
(DataElementLeaf.cpp, lines 61-83).  The incoming value is cached
unconditionally; the update is put on the queue only in steady state (`up`)
or when an initial read is answered (`initialRead` with `readComplete`);
the returned flag tells whether `pconnector->requestRecordProcessing(reason)`
was invoked (exactly when the push reported the queue was empty before).
Timestamp and status are those the item supplies for this update. -/
def leafSetIncomingEventData (state : ConnectionStatus) (ts status : Nat)
    (e : DataElementLeaf) (reason : ProcessReason) (value : UaVariant) :
    DataElementLeaf × Bool :=
  let e1 := { e with incomingData := value }
  if (state = .initialRead ∧ reason = .readComplete) ∨ state = .up then
    let u : UpdateUaSdk := ⟨ts, reason, some value, status⟩
    let r := pushUpdate e1.incomingQueue e1.clientQueueSize e1.discardOldest u
    ({ e1 with incomingQueue := r.1 }, r.2)
  else (e1, false)

/-- Model of `DataElementLeaf::setIncomingEvent(reason)` (no value;
DataElementLeaf.cpp, lines 86-101): the event is queued unconditionally and
processing is requested exactly when the queue was empty before. -/
def leafSetIncomingEventNoData (ts : Nat) (e : DataElementLeaf)
    (reason : ProcessReason) : DataElementLeaf × Bool :=
  let u : UpdateUaSdk := ⟨ts, reason, none, 0⟩
  let r := pushUpdate e.incomingQueue e.clientQueueSize e.discardOldest u
  ({ e with incomingQueue := r.1 }, r.2)

/-! ## The vertex element (DataElementVertex.cpp) -/

/-- What a child element exposes to its parent vertex: its name, its cached
incoming value, and the outgoing slot with its dirty flag.  The child may be
a leaf or a nested vertex; its internal behaviour (queueing, recursive
decode) is modelled at the leaf level above, so here a child update simply
replaces the exposed caches. -/
structure ChildRef where
  name : String
  incomingData : UaVariant
  isdirty : Bool
  outgoingData : UaVariant
deriving Repr

/-- State of a `DataElementVertex`: the child list holds weak pointers, so a
slot is `none` once the referenced child element has been released
(`std::weak_ptr::lock()` returning null); `elementMap` is the
index-to-child map (`std::unordered_map<int, weak_ptr>`) represented as
association pairs of field index and child position. -/
structure DataElementVertex where
  name : String
  incomingData : UaVariant
  outgoingData : UaVariant
  isdirty : Bool
  elements : List (Option ChildRef)
  elementMap : List (Nat × Nat)
  mapped : Bool
deriving Repr

/-- Modelled from the spec: the structure definition the Item collaborator
returns for a type id (`ItemUaSdk::structureDefinition`, not under the
provided sources): a union flag and the ordered child (field) names. -/
structure UaStructureDefinition where
  isUnion : Bool
  childNames : List String
deriving Repr, DecidableEq

/-- The structure-definition lookup capability (`item->structureDefinition`);
`none` models a null definition (type missing from the dictionary). -/
abbrev StructureLookup := Nat → Option UaStructureDefinition

/-- Insertion into `std::unordered_map<int, ...>`: a no-op when the key is
already present. -/
def insertMapEntry (m : List (Nat × Nat)) (k j : Nat) : List (Nat × Nat) :=
  if m.any (fun e => e.1 == k) then m else m ++ [(k, j)]

/-- The loop body of `DataElementVertex::mapChildren` (DataElementVertex.cpp,
lines 57-73): for each child (at position `j`), lock the weak pointer and —
without a null check — compare the child name against every field name of the
definition, inserting a map entry on a match.  An expired child slot makes
the unchecked dereference `pelem->name` undefined behaviour, modelled as
`none`. -/
def mapChildrenAux (d : UaStructureDefinition) :
    List (Option ChildRef) → Nat → List (Nat × Nat) → Option (List (Nat × Nat))
  | [], _, m => some m
  | none :: _, _, _ => none
  | some c :: rest, j, m =>
    let m1 := (List.range d.childNames.length).foldl
      (fun acc i => if d.childNames.get? i = some c.name then insertMapEntry acc i j else acc) m
    mapChildrenAux d rest (j + 1) m1

/-- Model of `DataElementVertex::mapChildren`. -/
def mapChildren (elements : List (Option ChildRef)) (d : UaStructureDefinition) :
    Option (List (Nat × Nat)) :=
  mapChildrenAux d elements 0 []

/-- Model of `UaGenericStructureValue::value(i)`: the field value at index
`i` of the decoded structured value. -/
def genericValueField (fields : List UaVariant) (i : Nat) : UaVariant :=
  fields.getD i .null

/-- The dispatch loop of the structured `setIncomingEvent`: for every map
entry, lock the child weak pointer (unchecked dereference — `none` when the
slot expired) and push the indexed field value into the child. -/
def dispatchIncoming (fields : List UaVariant) :
    List (Nat × Nat) → List (Option ChildRef) → Option (List (Option ChildRef))
  | [], es => some es
  | (i, j) :: rest, es =>
    match es.getD j none with
    | none => none
    | some c =>
      dispatchIncoming fields rest (es.set j (some { c with incomingData := genericValueField fields i }))

/-- Model of `DataElementVertex::setIncomingEvent(reason, value)`
(DataElementVertex.cpp, lines 75-111).  Caches the value; for an extension
object with an available non-union structure definition, builds the
index-to-child map once (`mapped` guard) and dispatches each mapped field
value to its child; a missing definition is logged and the value dropped for
the subtree. -/
def vertexSetIncomingEventData (lookup : StructureLookup) (v : DataElementVertex)
    (value : UaVariant) : Option DataElementVertex :=
  let v1 := { v with incomingData := value }
  match value with
  | .extObj tid fields =>
    match lookup tid with
    | some d =>
      if d.isUnion then some v1
      else
        match (if v1.mapped then some v1.elementMap else mapChildren v1.elements d) with
        | none => none
        | some m =>
          let v2 := { v1 with elementMap := m, mapped := true }
          match dispatchIncoming fields m v2.elements with
          | none => none
          | some es => some { v2 with elements := es }
    | none => some v1
  | _ => some v1

/-- The fan-out loop of `DataElementVertex::setIncomingEvent(reason)`
(DataElementVertex.cpp, lines 113-120): forward the event to every child in
the element list, dereferencing each locked weak pointer without a null
check. -/
def forwardEvent : List (Option ChildRef) → Option (List (Option ChildRef))
  | [] => some []
  | none :: _ => none
  | some c :: rest =>
    match forwardEvent rest with
    | none => none
    | some rs => some (some c :: rs)

/-- Model of `DataElementVertex::setIncomingEvent(reason)` (no value). -/
def vertexSetIncomingEventNoData (v : DataElementVertex) : Option DataElementVertex :=
  (forwardEvent v.elements).map (fun es => { v with elements := es })

/-- The fan-out loop of `DataElementVertex::requestRecordProcessing`
(DataElementVertex.cpp, lines 200-207): for every map entry, lock the child
weak pointer and call through it without a null check.  The method is
`const`; only the undefined-behaviour outcome is observable here. -/
def fanOutMap (es : List (Option ChildRef)) : List (Nat × Nat) → Option Unit
  | [] => some ()
  | (_, j) :: rest =>
    match es.getD j none with
    | none => none
    | some _ => fanOutMap es rest

/-- Model of `DataElementVertex::requestRecordProcessing(reason)`. -/
def vertexRequestRecordProcessing (v : DataElementVertex) : Option Unit :=
  fanOutMap v.elements v.elementMap

/-- Model of `DataElementVertex::updateDataInGenericValue` (lines 123-147):
under the child's outgoing lock, if the child is dirty, splice its outgoing
value into the field slot, clear the child's dirty flag and report the
splice. -/
def updateDataInGenericValue (fields : List UaVariant) (i : Nat) (c : ChildRef) :
    List UaVariant × ChildRef × Bool :=
  if c.isdirty then (fields.set i c.outgoingData, { c with isdirty := false }, true)
  else (fields, c, false)

/-- The splice loop of `DataElementVertex::getOutgoingData`: for every map
entry, lock the child weak pointer (unchecked dereference) and run
`updateDataInGenericValue`, accumulating the vertex dirty flag. -/
def encodeOutgoingAux :
    List (Nat × Nat) → List UaVariant → List (Option ChildRef) → Bool →
    Option (List UaVariant × List (Option ChildRef) × Bool)
  | [], fs, es, dirty => some (fs, es, dirty)
  | (i, j) :: rest, fs, es, dirty =>
    match es.getD j none with
    | none => none
    | some c =>
      let r := updateDataInGenericValue fs i c
      encodeOutgoingAux rest r.1 (es.set j (some r.2.1)) (dirty || r.2.2)

/-- Model of `DataElementVertex::getOutgoingData` (DataElementVertex.cpp,
lines 149-198).  Starts from the cached incoming value as baseline with the
vertex dirty flag cleared; for a non-union structured value it splices every
dirty mapped child into the generic value and re-encodes only if at least one
splice happened, otherwise the baseline is returned unchanged. -/
def vertexGetOutgoingData (lookup : StructureLookup) (v : DataElementVertex) :
    Option (DataElementVertex × UaVariant) :=
  let v1 := { v with outgoingData := v.incomingData, isdirty := false }
  match v1.outgoingData with
  | .extObj tid fields =>
    match lookup tid with
    | some d =>
      if d.isUnion then some (v1, v1.outgoingData)
      else
        match (if v1.mapped then some v1.elementMap else mapChildren v1.elements d) with
        | none => none
        | some m =>
          let v2 := { v1 with elementMap := m, mapped := true }
          match encodeOutgoingAux m fields v2.elements false with
          | none => none
          | some (fs, es, dirty) =>
            if dirty then
              some ({ v2 with
                        elements := es
                        isdirty := true
                        outgoingData := .extObj tid fs },
                    .extObj tid fs)
            else
              some ({ v2 with elements := es }, v2.outgoingData)
    | none => some (v1, v1.outgoingData)
  | _ => some (v1, v1.outgoingData)

/-- Whether the child slot a map entry points at is dirty (an expired slot
counts as not dirty). -/
def childDirtyb (es : List (Option ChildRef)) (e : Nat × Nat) : Bool :=
  match es.getD e.2 none with
  | some c => c.isdirty
  | none => false

/-! ## Basic lemmas about the element tree -/

theorem ETree.name_node (nm : String) (b : Bool) (cs : List ETree) :
    (ETree.node nm b cs).name = nm := rfl

theorem ETree.isLeaf_node (nm : String) (b : Bool) (cs : List ETree) :
    (ETree.node nm b cs).isLeaf = b := rfl

theorem ETree.children_node (nm : String) (b : Bool) (cs : List ETree) :
    (ETree.node nm b cs).children = cs := rfl

theorem findChild_name {t : ETree} {nm : String} {c : ETree}
    (h : findChild t nm = some c) : c.name = nm := by
  unfold findChild at h
  split at h
  · exact absurd h (by simp)
  · have h1 := List.find?_some h
    exact eq_of_beq (by simpa using h1)

theorem findChild_mem {t : ETree} {nm : String} {c : ETree}
    (h : findChild t nm = some c) : c ∈ t.children := by
  unfold findChild at h
  split at h
  · exact absurd h (by simp)
  · exact List.mem_of_find?_eq_some h

theorem findChild_of_isLeaf {t : ETree} (h : t.isLeaf = true) (nm : String) :
    findChild t nm = none := by
  unfold findChild
  simp [h]

theorem findChild_eq_find? {t : ETree} (h : t.isLeaf = false) (nm : String) :
    findChild t nm = t.children.find? (fun c => c.name == nm) := by
  unfold findChild
  simp [h]

theorem setChild_name (t : ETree) (nm : String) (c' : ETree) :
    (setChild t nm c').name = t.name := rfl

theorem setChild_isLeaf (t : ETree) (nm : String) (c' : ETree) :
    (setChild t nm c').isLeaf = t.isLeaf := rfl

theorem setChild_children (t : ETree) (nm : String) (c' : ETree) :
    (setChild t nm c').children = replaceFirstNamed nm c' t.children := rfl

theorem find?_replaceFirstNamed_self {nm : String} {c' : ETree}
    (hc' : c'.name = nm) :
    ∀ {cs : List ETree} {c : ETree}, cs.find? (fun d => d.name == nm) = some c →
      (replaceFirstNamed nm c' cs).find? (fun d => d.name == nm) = some c' := by
  intro cs
  induction cs with
  | nil => intro c h; simp at h
  | cons a cs ih =>
    intro c h
    by_cases ha : (a.name == nm) = true
    · simp [replaceFirstNamed, ha, List.find?_cons, hc']
    · simp only [replaceFirstNamed, if_neg ha]
      simp only [List.find?_cons, Bool.not_eq_true] at h ⊢
      rw [Bool.not_eq_true] at ha
      rw [ha] at h ⊢
      exact ih h

theorem find?_replaceFirstNamed_other {nm b : String} {c' : ETree}
    (hc' : c'.name = nm) (hb : b ≠ nm) (cs : List ETree) :
    (replaceFirstNamed nm c' cs).find? (fun d => d.name == b)
      = cs.find? (fun d => d.name == b) := by
  have hnb : nm ≠ b := Ne.symm hb
  induction cs with
  | nil => rfl
  | cons a cs ih =>
    by_cases ha : (a.name == nm) = true
    · have haeq : a.name = nm := eq_of_beq ha
      have hab : (a.name == b) = false := by
        simp [haeq]; exact hnb
      have hcb : (c'.name == b) = false := by
        simp [hc']; exact hnb
      simp [replaceFirstNamed, ha, List.find?_cons, hab, hcb]
    · rw [Bool.not_eq_true] at ha
      simp only [replaceFirstNamed, ha, if_false, Bool.false_eq_true]
      simp only [List.find?_cons]
      cases hab : (a.name == b) with
      | true => rfl
      | false => exact ih

theorem findChild_setChild_self {t : ETree} {nm : String} {c c' : ETree}
    (h : findChild t nm = some c) (hc' : c'.name = nm) :
    findChild (setChild t nm c') nm = some c' := by
  have htl : t.isLeaf = false := by
    by_contra hl
    rw [findChild_of_isLeaf (by simpa using hl)] at h
    exact absurd h (by simp)
  rw [findChild_eq_find? htl] at h
  rw [findChild_eq_find? (by simpa [setChild_isLeaf] using htl), setChild_children]
  exact find?_replaceFirstNamed_self hc' h

theorem findChild_setChild_other {t : ETree} {nm b : String} {c' : ETree}
    (hc' : c'.name = nm) (hb : b ≠ nm) :
    findChild (setChild t nm c') b = findChild t b := by
  by_cases htl : t.isLeaf
  · rw [findChild_of_isLeaf htl, findChild_of_isLeaf (by simpa [setChild_isLeaf] using htl)]
  · rw [findChild_eq_find? (by simpa using htl),
        findChild_eq_find? (by simpa [setChild_isLeaf] using htl), setChild_children]
    exact find?_replaceFirstNamed_other hc' hb t.children

theorem addLeafGo_name_isLeaf {l : ETree} :
    ∀ {p : List String} {t t' : ETree}, addLeafGo l t p = .ok t' →
      t'.name = t.name ∧ t'.isLeaf = t.isLeaf := by
  intro p
  induction p with
  | nil =>
    intro t t' h
    unfold addLeafGo at h
    split at h <;> simp at h
  | cons nm rest ih =>
    intro t t' h
    unfold addLeafGo at h
    cases hfc : findChild t nm with
    | some c =>
      simp only [hfc] at h
      cases hrec : addLeafGo l c rest with
      | error e => simp only [hrec] at h; exact absurd h (by simp)
      | ok c' =>
        simp only [hrec, Except.ok.injEq] at h
        subst h
        exact ⟨setChild_name t nm c', setChild_isLeaf t nm c'⟩
    | none =>
      simp only [hfc] at h
      split at h
      · simp at h
      · simp only [Except.ok.injEq] at h
        subst h
        exact ⟨rfl, rfl⟩

theorem getAt_nil (t : ETree) : getAt t [] = some t := rfl

theorem getAt_cons (t : ETree) (nm : String) (rest : List String) :
    getAt t (nm :: rest)
      = match findChild t nm with
        | some c => getAt c rest
        | none => none := rfl

theorem getAt_cons_some {t c : ETree} {nm : String} (h : findChild t nm = some c)
    (rest : List String) : getAt t (nm :: rest) = getAt c rest := by
  rw [getAt_cons, h]

theorem getAt_cons_none {t : ETree} {nm : String} (h : findChild t nm = none)
    (rest : List String) : getAt t (nm :: rest) = none := by
  rw [getAt_cons, h]

theorem cp_nil (t : ETree) : cp t [] = some t.isLeaf := rfl

theorem cp_cons_some {t c : ETree} {nm : String} (h : findChild t nm = some c)
    (rest : List String) : cp t (nm :: rest) = cp c rest := by
  unfold cp
  rw [getAt_cons_some h]

theorem cp_cons_none {t : ETree} {nm : String} (h : findChild t nm = none)
    (rest : List String) : cp t (nm :: rest) = none := by
  unfold cp
  rw [getAt_cons_none h]
  rfl

theorem cp_leaf_cons {t : ETree} (h : t.isLeaf = true) (nm : String)
    (rest : List String) : cp t (nm :: rest) = none :=
  cp_cons_none (findChild_of_isLeaf h nm) rest

theorem getLastD_irrel {α : Type} : ∀ (l : List α), l ≠ [] → ∀ (d e : α),
    l.getLastD d = l.getLastD e := by
  intro l
  induction l with
  | nil => intro h; exact absurd rfl h
  | cons a t ih =>
    intro _ d e
    cases t with
    | nil => rfl
    | cons b u => simp only [List.getLastD_cons]

theorem fb_some (x : Bool) (b : Option Bool) : fb (some x) b = some x := rfl

theorem fb_none (b : Option Bool) : fb none b = b := rfl

theorem fb_rhs_none : ∀ (a : Option Bool), fb a none = a := by
  intro a; cases a <;> rfl

theorem fb_assoc : ∀ (a b c : Option Bool), fb (fb a b) c = fb a (fb b c) := by
  intro a b c; cases a <;> rfl

theorem buildChain_nil (l : ETree) : buildChain l [] = l := rfl

theorem buildChain_cons (l : ETree) (nm : String) (segs : List String) :
    buildChain l (nm :: segs) = ETree.node nm false [buildChain l segs] := rfl

theorem chain_shape (l : ETree) (nm b : String) (rest : List String) :
    buildChain l ((nm :: b :: rest).dropLast)
      = ETree.node nm false [buildChain l ((b :: rest).dropLast)] := by
  rw [show (nm :: b :: rest).dropLast = nm :: (b :: rest).dropLast by
        simp [List.dropLast]]
  exact buildChain_cons l nm ((b :: rest).dropLast)

theorem chain_name {l : ETree} {nm : String} {rest : List String}
    (hname : l.name = (nm :: rest).getLastD "") :
    (buildChain l ((nm :: rest).dropLast)).name = nm := by
  cases rest with
  | nil =>
    simp only [List.dropLast_single, buildChain_nil]
    simpa using hname
  | cons b rest2 =>
    rw [chain_shape]
    rfl

theorem cp_chain {l : ETree} (hl : l.isLeaf = true) :
    ∀ (rest : List String) (nm : String), l.name = (nm :: rest).getLastD "" →
      ∀ qs, cp (buildChain l ((nm :: rest).dropLast)) qs
        = if qs.isPrefixOf rest = true then some (decide (qs = rest)) else none := by
  intro rest
  induction rest with
  | nil =>
    intro nm _ qs
    simp only [List.dropLast_single, buildChain_nil]
    cases qs with
    | nil => simp [cp_nil, hl]
    | cons x xs => simp [cp_leaf_cons hl, List.isPrefixOf]
  | cons b rest2 ih =>
    intro nm hname qs
    rw [chain_shape]
    have hname2 : l.name = (b :: rest2).getLastD "" := by
      simpa [List.getLastD_cons,
             getLastD_irrel (b :: rest2) (by simp) nm ""] using hname
    have hcn : (buildChain l ((b :: rest2).dropLast)).name = b := chain_name hname2
    cases qs with
    | nil =>
      simp [cp_nil, ETree.isLeaf_node, List.isPrefixOf]
    | cons x xs =>
      by_cases hxb : x = b
      · subst hxb
        have hfc : findChild (ETree.node nm false [buildChain l ((x :: rest2).dropLast)]) x
            = some (buildChain l ((x :: rest2).dropLast)) := by
          unfold findChild
          simp [ETree.isLeaf_node, ETree.children_node, List.find?_cons, hcn]
        rw [cp_cons_some hfc, ih x hname2 xs]
        by_cases hpre : xs.isPrefixOf rest2 = true
        · simp only [hpre, if_true, List.isPrefixOf, beq_self_eq_true, Bool.true_and]
          exact congrArg some (decide_eq_decide.mpr (by simp))
        · simp only [List.isPrefixOf, beq_self_eq_true, Bool.true_and]
          simp [hpre]
      · have hb2 : ((buildChain l ((b :: rest2).dropLast)).name == x) = false := by
          rw [hcn]
          exact beq_eq_false_iff_ne.mpr (Ne.symm hxb)
        have hfc : findChild (ETree.node nm false [buildChain l ((b :: rest2).dropLast)]) x
            = none := by
          unfold findChild
          simp [ETree.isLeaf_node, ETree.children_node, List.find?_cons, hb2]
        rw [cp_cons_none hfc]
        have hpf : ((x :: xs).isPrefixOf (b :: rest2)) = false := by
          simp [List.isPrefixOf]
          intro h
          exact absurd h hxb
        simp [hpf]

theorem getAt_chain {l : ETree} :
    ∀ (rest : List String) (nm : String), l.name = (nm :: rest).getLastD "" →
      getAt (buildChain l ((nm :: rest).dropLast)) rest = some l := by
  intro rest
  induction rest with
  | nil => intro nm _; simp [List.dropLast_single, buildChain_nil, getAt_nil]
  | cons b rest2 ih =>
    intro nm hname
    rw [chain_shape]
    have hname2 : l.name = (b :: rest2).getLastD "" := by
      simpa [List.getLastD_cons,
             getLastD_irrel (b :: rest2) (by simp) nm ""] using hname
    have hcn : (buildChain l ((b :: rest2).dropLast)).name = b := chain_name hname2
    have hfc : findChild (ETree.node nm false [buildChain l ((b :: rest2).dropLast)]) b
        = some (buildChain l ((b :: rest2).dropLast)) := by
      unfold findChild
      simp [ETree.isLeaf_node, ETree.children_node, List.find?_cons, hcn]
    rw [getAt_cons_some hfc]
    exact ih b hname2

theorem findChild_none_not_mem {t : ETree} {nm : String} (htl : t.isLeaf = false)
    (h : findChild t nm = none) : ∀ c ∈ t.children, (c.name == nm) = false := by
  rw [findChild_eq_find? htl] at h
  intro c hc
  simpa using List.find?_eq_none.mp h c hc

theorem findChild_append {t : ETree} (htl : t.isLeaf = false) (d : ETree) (b : String) :
    findChild (ETree.node t.name t.isLeaf (t.children ++ [d])) b
      = (findChild t b).or (if (d.name == b) = true then some d else none) := by
  rw [findChild_eq_find? (by simpa [ETree.isLeaf_node] using htl),
      findChild_eq_find? htl]
  simp only [ETree.children_node]
  rw [List.find?_append]
  cases hd : (d.name == b) <;> simp [List.find?_cons, hd]

/-- How a successful `addLeafGo` call extends the path-to-kind map: existing
nodes keep their kind and position, and every non-empty front part of the
added path that did not exist before gains a node — a vertex strictly before
the full path, the new leaf exactly at it. -/
theorem cp_addLeafGo {l : ETree} (hl : l.isLeaf = true) :
    ∀ {p : List String} {t t' : ETree}, addLeafGo l t p = .ok t' →
      l.name = p.getLastD "" →
      ∀ q, cp t' q = fb (cp t q) (newNodeKind p q) := by
  intro p
  induction p with
  | nil =>
    intro t t' h _
    unfold addLeafGo at h
    split at h <;> simp at h
  | cons nm rest ih =>
    intro t t' h hname q
    unfold addLeafGo at h
    cases hfc : findChild t nm with
    | some c =>
      simp only [hfc] at h
      cases hrec : addLeafGo l c rest with
      | error e => simp only [hrec] at h; exact absurd h (by simp)
      | ok c' =>
        simp only [hrec, Except.ok.injEq] at h
        subst h
        have hrestne : rest ≠ [] := by
          intro hr
          subst hr
          unfold addLeafGo at hrec
          split at hrec <;> simp at hrec
        have hname2 : l.name = rest.getLastD "" := by
          rw [hname, List.getLastD_cons]
          exact getLastD_irrel rest hrestne nm ""
        have hcname : c.name = nm := findChild_name hfc
        have hc'name : c'.name = c.name := (addLeafGo_name_isLeaf hrec).1
        cases q with
        | nil =>
          rw [cp_nil, cp_nil, setChild_isLeaf, fb_some]
        | cons b qs =>
          by_cases hb : b = nm
          · subst hb
            rw [cp_cons_some (findChild_setChild_self hfc (hc'name.trans hcname)),
                cp_cons_some hfc, ih hrec hname2 qs]
            cases hcq : cp c qs with
            | some k => rw [fb_some, fb_some]
            | none =>
              rw [fb_none, fb_none]
              cases qs with
              | nil => rw [cp_nil] at hcq; exact absurd hcq (by simp)
              | cons x xs =>
                unfold newNodeKind
                by_cases hpre : (x :: xs).isPrefixOf rest = true
                · have : (b :: x :: xs).isPrefixOf (b :: rest) = true := by
                    simp [List.isPrefixOf, hpre]
                  simp only [hpre, this, ne_eq, List.cons_ne_nil, not_false_eq_true,
                             true_and, if_true]
                  exact congrArg some (decide_eq_decide.mpr (by simp))
                · have hpre2 : (x :: xs).isPrefixOf rest = false := by
                    simp only [Bool.not_eq_true] at hpre
                    exact hpre
                  have hpf : ((b :: x :: xs).isPrefixOf (b :: rest)) = false := by
                    simp [List.isPrefixOf, hpre2]
                  simp [hpre, hpf]
          · have hff : findChild (setChild t nm c') b = findChild t b :=
              findChild_setChild_other (hc'name.trans hcname) hb
            have hnk : newNodeKind (nm :: rest) (b :: qs) = none := by
              unfold newNodeKind
              have hpf : ((b :: qs).isPrefixOf (nm :: rest)) = false := by
                simp [List.isPrefixOf]
                intro hbn
                exact absurd hbn hb
              simp [hpf]
            rw [hnk, fb_rhs_none]
            cases hfb : findChild t b with
            | some d => rw [cp_cons_some (hff.trans hfb), cp_cons_some hfb]
            | none => rw [cp_cons_none (hff.trans hfb), cp_cons_none hfb]
    | none =>
      simp only [hfc] at h
      by_cases htl : t.isLeaf = true
      · rw [if_pos htl] at h
        exact absurd h (by simp)
      · rw [if_neg htl] at h
        simp only [Except.ok.injEq] at h
        subst h
        have htl2 : t.isLeaf = false := by simpa using htl
        have hcn : (buildChain l ((nm :: rest).dropLast)).name = nm := chain_name hname
        cases q with
        | nil =>
          rw [cp_nil, cp_nil, ETree.isLeaf_node, fb_some]
        | cons b qs =>
          have happ := findChild_append htl2 (buildChain l ((nm :: rest).dropLast)) b
          cases hfb : findChild t b with
          | some d =>
            rw [hfb] at happ
            simp only [Option.or_some] at happ
            rw [cp_cons_some happ, cp_cons_some hfb]
            have hbnm : b ≠ nm := by
              intro hbn
              subst hbn
              rw [hfc] at hfb
              exact absurd hfb (by simp)
            have hnk : newNodeKind (nm :: rest) (b :: qs) = none := by
              unfold newNodeKind
              have hpf : ((b :: qs).isPrefixOf (nm :: rest)) = false := by
                simp [List.isPrefixOf]
                intro hbn
                exact absurd hbn hbnm
              simp [hpf]
            rw [hnk, fb_rhs_none]
          | none =>
            rw [hfb] at happ
            simp only [Option.none_or] at happ
            by_cases hbnm : b = nm
            · subst hbnm
              rw [hcn] at happ
              simp only [beq_self_eq_true, if_true] at happ
              rw [cp_cons_some happ, cp_cons_none hfb, fb_none,
                  cp_chain hl rest b hname qs]
              unfold newNodeKind
              by_cases hpre : qs.isPrefixOf rest = true
              · have hpf : (b :: qs).isPrefixOf (b :: rest) = true := by
                  simp [List.isPrefixOf, hpre]
                simp only [hpre, hpf, ne_eq, List.cons_ne_nil, not_false_eq_true,
                           true_and, if_true]
                exact congrArg some (decide_eq_decide.mpr (by simp))
              · have hpre2 : qs.isPrefixOf rest = false := by
                  simp only [Bool.not_eq_true] at hpre
                  exact hpre
                have hpf : ((b :: qs).isPrefixOf (b :: rest)) = false := by
                  simp [List.isPrefixOf, hpre2]
                simp [hpre, hpf]
            · rw [hcn] at happ
              rw [beq_eq_false_iff_ne.mpr (Ne.symm hbnm)] at happ
              simp only [Bool.false_eq_true, if_false] at happ
              rw [cp_cons_none happ, cp_cons_none hfb, fb_none]
              unfold newNodeKind
              have hpf : ((b :: qs).isPrefixOf (nm :: rest)) = false := by
                simp [List.isPrefixOf]
                intro hbn
                exact absurd hbn hbnm
              simp [hpf]

/-- How a successful top-level `addLeaf` call extends the path-to-kind map of
the whole tree, the installation of a fresh root included. -/
theorem cp_addLeaf {l : ETree} (hl : l.isLeaf = true) :
    ∀ {root : Option ETree} {p : List String} {t' : ETree}, addLeaf root l p = .ok t' →
      (p ≠ [] → l.name = p.getLastD "") →
      ∀ q, cp t' q = fb (cpo root q) (newNodeKindRoot p q) := by
  intro root p t' h hn q
  cases p with
  | nil =>
    cases root with
    | some r => exact absurd h (by simp [addLeaf])
    | none =>
      simp only [addLeaf, Except.ok.injEq] at h
      subst h
      cases q with
      | nil => simp [cp_nil, hl, cpo, fb_none, newNodeKindRoot]
      | cons b qs =>
        rw [cp_leaf_cons hl]
        simp [cpo, fb_none, newNodeKindRoot, newNodeKind, List.isPrefixOf]
  | cons nm rest =>
    have hname : l.name = (nm :: rest).getLastD "" := hn (by simp)
    cases root with
    | some r =>
      have hgo : addLeafGo l r (nm :: rest) = .ok t' := h
      have hc := cp_addLeafGo hl hgo hname q
      rw [hc]
      cases q with
      | nil =>
        rw [cp_nil]
        rfl
      | cons b qs =>
        simp only [cpo, newNodeKindRoot, if_neg (by simp : ¬(b :: qs) = [])]
    | none =>
      simp only [addLeaf, Except.ok.injEq] at h
      subst h
      have hcn : (buildChain l ((nm :: rest).dropLast)).name = nm := chain_name hname
      cases q with
      | nil =>
        simp [cp_nil, ETree.isLeaf_node, cpo, fb_none, newNodeKindRoot]
      | cons b qs =>
        have hfc : findChild (ETree.node "[ROOT]" false [buildChain l ((nm :: rest).dropLast)]) b
            = if (b == nm) = true then some (buildChain l ((nm :: rest).dropLast)) else none := by
          unfold findChild
          simp only [ETree.isLeaf_node, Bool.false_eq_true, if_false, ETree.children_node,
                     List.find?_cons, List.find?_nil, hcn]
          cases hbn : (b == nm) with
          | true =>
            have : (nm == b) = true := by
              rw [beq_iff_eq] at hbn ⊢
              exact hbn.symm
            simp [this]
          | false =>
            have : (nm == b) = false := by
              rw [beq_eq_false_iff_ne] at hbn ⊢
              exact Ne.symm hbn
            simp [this]
        by_cases hbn : b = nm
        · subst hbn
          simp only [beq_self_eq_true, if_true] at hfc
          rw [cp_cons_some hfc, cp_chain hl rest b hname qs]
          simp only [cpo, fb_none, newNodeKindRoot,
                     if_neg (by simp : ¬(b :: qs) = [])]
          unfold newNodeKind
          by_cases hpre : qs.isPrefixOf rest = true
          · have hpf : (b :: qs).isPrefixOf (b :: rest) = true := by
              simp [List.isPrefixOf, hpre]
            simp only [hpre, hpf, ne_eq, List.cons_ne_nil, not_false_eq_true,
                       true_and, if_true]
            exact congrArg some (decide_eq_decide.mpr (by simp))
          · have hpre2 : qs.isPrefixOf rest = false := by
              simp only [Bool.not_eq_true] at hpre
              exact hpre
            have hpf : ((b :: qs).isPrefixOf (b :: rest)) = false := by
              simp [List.isPrefixOf, hpre2]
            simp [hpre, hpf]
        · rw [beq_eq_false_iff_ne.mpr hbn] at hfc
          simp only [Bool.false_eq_true, if_false] at hfc
          rw [cp_cons_none hfc]
          simp only [cpo, fb_none, newNodeKindRoot,
                     if_neg (by simp : ¬(b :: qs) = [])]
          unfold newNodeKind
          have hpf : ((b :: qs).isPrefixOf (nm :: rest)) = false := by
            simp [List.isPrefixOf]
            intro hb2
            exact absurd hb2 hbn
          simp [hpf]

/-- After a successful `addLeafGo`, the added leaf itself sits at the full
path. -/
theorem addLeafGo_getAt_self {l : ETree} :
    ∀ {p : List String} {t t' : ETree}, addLeafGo l t p = .ok t' →
      l.name = p.getLastD "" → getAt t' p = some l := by
  intro p
  induction p with
  | nil =>
    intro t t' h _
    unfold addLeafGo at h
    split at h <;> simp at h
  | cons nm rest ih =>
    intro t t' h hname
    unfold addLeafGo at h
    cases hfc : findChild t nm with
    | some c =>
      simp only [hfc] at h
      cases hrec : addLeafGo l c rest with
      | error e => simp only [hrec] at h; exact absurd h (by simp)
      | ok c' =>
        simp only [hrec, Except.ok.injEq] at h
        subst h
        have hrestne : rest ≠ [] := by
          intro hr
          subst hr
          unfold addLeafGo at hrec
          split at hrec <;> simp at hrec
        have hname2 : l.name = rest.getLastD "" := by
          rw [hname, List.getLastD_cons]
          exact getLastD_irrel rest hrestne nm ""
        have hcname : c.name = nm := findChild_name hfc
        have hc'name : c'.name = c.name := (addLeafGo_name_isLeaf hrec).1
        rw [getAt_cons_some (findChild_setChild_self hfc (hc'name.trans hcname))]
        exact ih hrec hname2
    | none =>
      simp only [hfc] at h
      by_cases htl : t.isLeaf = true
      · rw [if_pos htl] at h
        exact absurd h (by simp)
      · rw [if_neg htl] at h
        simp only [Except.ok.injEq] at h
        subst h
        have htl2 : t.isLeaf = false := by simpa using htl
        have hcn : (buildChain l ((nm :: rest).dropLast)).name = nm := chain_name hname
        have happ := findChild_append htl2 (buildChain l ((nm :: rest).dropLast)) nm
        rw [hfc, Option.none_or, hcn, beq_self_eq_true, if_pos rfl] at happ
        rw [getAt_cons_some happ]
        exact getAt_chain rest nm hname

/-- After a successful top-level `addLeaf` with a non-empty path, the added
leaf itself sits at the full path. -/
theorem addLeaf_getAt_self {l : ETree} {root : Option ETree} {p : List String}
    {t' : ETree} (h : addLeaf root l p = .ok t')
    (hn : p ≠ [] → l.name = p.getLastD "") (hp : p ≠ []) :
    getAt t' p = some l := by
  cases p with
  | nil => exact absurd rfl hp
  | cons nm rest =>
    have hname : l.name = (nm :: rest).getLastD "" := hn (by simp)
    cases root with
    | some r => exact addLeafGo_getAt_self h hname
    | none =>
      simp only [addLeaf, Except.ok.injEq] at h
      subst h
      have hcn : (buildChain l ((nm :: rest).dropLast)).name = nm := chain_name hname
      have hfc : findChild (ETree.node "[ROOT]" false [buildChain l ((nm :: rest).dropLast)]) nm
          = some (buildChain l ((nm :: rest).dropLast)) := by
        unfold findChild
        simp [ETree.isLeaf_node, ETree.children_node, List.find?_cons, hcn]
      rw [getAt_cons_some hfc]
      exact getAt_chain rest nm hname

/-- A walk that ends on a leaf makes `addLeafGo` fail with the leaf error
naming that leaf (the leaf check precedes the duplicate-root check). -/
theorem addLeafGo_exact_leaf (l2 : ETree) :
    ∀ {p : List String} {t x : ETree}, getAt t p = some x → x.isLeaf = true →
      addLeafGo l2 t p = .error (.leafExists x.name) := by
  intro p
  induction p with
  | nil =>
    intro t x h hx
    rw [getAt_nil] at h
    cases h
    unfold addLeafGo
    rw [if_pos hx]
  | cons nm rest ih =>
    intro t x h hx
    cases hfc : findChild t nm with
    | some c =>
      rw [getAt_cons_some hfc] at h
      unfold addLeafGo
      simp only [hfc, ih h hx]
    | none =>
      rw [getAt_cons_none hfc] at h
      exact absurd h (by simp)

/-- A walk that ends on a vertex with no path segment left makes `addLeafGo`
fail with the duplicate-root error. -/
theorem addLeafGo_exact_vertex (l2 : ETree) :
    ∀ {p : List String} {t x : ETree}, getAt t p = some x → x.isLeaf = false →
      addLeafGo l2 t p = .error .rootExists := by
  intro p
  induction p with
  | nil =>
    intro t x h hx
    rw [getAt_nil] at h
    cases h
    unfold addLeafGo
    rw [if_neg (by simp [hx])]
  | cons nm rest ih =>
    intro t x h hx
    cases hfc : findChild t nm with
    | some c =>
      rw [getAt_cons_some hfc] at h
      unfold addLeafGo
      simp only [hfc, ih h hx]
    | none =>
      rw [getAt_cons_none hfc] at h
      exact absurd h (by simp)

/-- A leaf anywhere on the front of the path makes `addLeafGo` fail with the
leaf error. -/
theorem addLeafGo_leaf_on_path (l2 : ETree) :
    ∀ {q p : List String} {t x : ETree}, getAt t q = some x → x.isLeaf = true →
      q.isPrefixOf p = true → ∃ nm, addLeafGo l2 t p = .error (.leafExists nm) := by
  intro q
  induction q with
  | nil =>
    intro p t x h hx _
    rw [getAt_nil] at h
    cases h
    cases p with
    | nil =>
      refine ⟨t.name, ?_⟩
      unfold addLeafGo
      rw [if_pos hx]
    | cons nm rest =>
      refine ⟨t.name, ?_⟩
      unfold addLeafGo
      simp only [findChild_of_isLeaf hx nm]
      rw [if_pos hx]
  | cons a qs ih =>
    intro p t x h hx hpre
    cases p with
    | nil => simp [List.isPrefixOf] at hpre
    | cons b ps =>
      simp only [List.isPrefixOf, Bool.and_eq_true, beq_iff_eq] at hpre
      obtain ⟨hab, hqp⟩ := hpre
      subst hab
      cases hfc : findChild t a with
      | some c =>
        rw [getAt_cons_some hfc] at h
        obtain ⟨nm, hrec⟩ := ih h hx hqp
        refine ⟨nm, ?_⟩
        unfold addLeafGo
        simp only [hfc, hrec]
      | none =>
        rw [getAt_cons_none hfc] at h
        exact absurd h (by simp)

/-- A successful `addLeafGo` run implies no node sat at the full path. -/
theorem addLeafGo_ok_getAt_none {l : ETree} {p : List String} {t t' : ETree}
    (h : addLeafGo l t p = .ok t') : getAt t p = none := by
  cases hg : getAt t p with
  | none => rfl
  | some x =>
    cases hx : x.isLeaf with
    | true => rw [addLeafGo_exact_leaf l hg hx] at h; exact absurd h (by simp)
    | false => rw [addLeafGo_exact_vertex l hg hx] at h; exact absurd h (by simp)

theorem uniqb_node (nm : String) (b : Bool) (cs : List ETree) :
    uniqb (.node nm b cs) = (nodupNames cs && uniqbList cs) := by
  rw [uniqb]

theorem uniqb_def (t : ETree) :
    uniqb t = (nodupNames t.children && uniqbList t.children) := by
  cases t
  rw [uniqb]
  rfl

theorem uniqbList_eq_all : ∀ (cs : List ETree), uniqbList cs = cs.all uniqb := by
  intro cs
  induction cs with
  | nil => rw [uniqbList]; rfl
  | cons c cs ih => rw [uniqbList, ih]; rfl

theorem uniqb_child {t c : ETree} (h : uniqb t = true) (hc : c ∈ t.children) :
    uniqb c = true := by
  rw [uniqb_def, Bool.and_eq_true, uniqbList_eq_all, List.all_eq_true] at h
  exact h.2 c hc

theorem uniqb_of_children_nil {t : ETree} (hc : t.children = []) : uniqb t = true := by
  rw [uniqb_def, hc]
  rfl

theorem map_name_replaceFirstNamed {nm : String} {c' : ETree} (hc' : c'.name = nm) :
    ∀ (cs : List ETree), (replaceFirstNamed nm c' cs).map ETree.name = cs.map ETree.name := by
  intro cs
  induction cs with
  | nil => rfl
  | cons c cs ih =>
    by_cases hcnm : (c.name == nm) = true
    · simp only [replaceFirstNamed, hcnm, if_true, List.map_cons, hc']
      rw [eq_of_beq hcnm]
    · rw [Bool.not_eq_true] at hcnm
      simp only [replaceFirstNamed, hcnm, Bool.false_eq_true, if_false, List.map_cons, ih]

theorem uniqbList_replaceFirstNamed {nm : String} {c' : ETree} (hc' : uniqb c' = true) :
    ∀ {cs : List ETree}, uniqbList cs = true →
      uniqbList (replaceFirstNamed nm c' cs) = true := by
  intro cs
  induction cs with
  | nil => intro h; exact h
  | cons c cs ih =>
    intro h
    rw [uniqbList, Bool.and_eq_true] at h
    by_cases hcnm : (c.name == nm) = true
    · simp only [replaceFirstNamed, hcnm, if_true]
      rw [uniqbList, Bool.and_eq_true]
      exact ⟨hc', h.2⟩
    · rw [Bool.not_eq_true] at hcnm
      simp only [replaceFirstNamed, hcnm, Bool.false_eq_true, if_false]
      rw [uniqbList, Bool.and_eq_true]
      exact ⟨h.1, ih h.2⟩

theorem uniqb_buildChain {l : ETree} (hl : uniqb l = true) :
    ∀ (segs : List String), uniqb (buildChain l segs) = true := by
  intro segs
  induction segs with
  | nil => exact hl
  | cons nm segs ih =>
    rw [buildChain_cons, uniqb_node, Bool.and_eq_true]
    constructor
    · rw [nodupNames]
      simp [namesNodup]
    · rw [uniqbList, Bool.and_eq_true]
      exact ⟨ih, by rw [uniqbList]⟩

theorem namesNodup_append_single :
    ∀ {ns : List String} {m : String}, namesNodup ns = true →
      (∀ n ∈ ns, (n == m) = false) → namesNodup (ns ++ [m]) = true := by
  intro ns
  induction ns with
  | nil => intro m _ _; rw [List.nil_append, namesNodup]; simp [namesNodup]
  | cons n ns ih =>
    intro m h hm
    rw [namesNodup, Bool.and_eq_true] at h
    rw [List.cons_append, namesNodup, Bool.and_eq_true]
    constructor
    · rw [List.all_append, Bool.and_eq_true]
      refine ⟨h.1, ?_⟩
      have hnm : (n == m) = false := hm n (by simp)
      have : m ≠ n := by
        intro hmn
        rw [hmn, beq_self_eq_true] at hnm
        exact absurd hnm (by simp)
      simp [this]
    · exact ih h.2 (fun x hx => hm x (by simp [hx]))

theorem uniqb_addLeafGo {l : ETree} (hlu : uniqb l = true) :
    ∀ {p : List String} {t t' : ETree}, addLeafGo l t p = .ok t' →
      l.name = p.getLastD "" → uniqb t = true → uniqb t' = true := by
  intro p
  induction p with
  | nil =>
    intro t t' h _ _
    unfold addLeafGo at h
    split at h <;> simp at h
  | cons nm rest ih =>
    intro t t' h hname hu
    unfold addLeafGo at h
    cases hfc : findChild t nm with
    | some c =>
      simp only [hfc] at h
      cases hrec : addLeafGo l c rest with
      | error e => simp only [hrec] at h; exact absurd h (by simp)
      | ok c' =>
        simp only [hrec, Except.ok.injEq] at h
        subst h
        have hrestne : rest ≠ [] := by
          intro hr
          subst hr
          unfold addLeafGo at hrec
          split at hrec <;> simp at hrec
        have hname2 : l.name = rest.getLastD "" := by
          rw [hname, List.getLastD_cons]
          exact getLastD_irrel rest hrestne nm ""
        have hcname : c.name = nm := findChild_name hfc
        have hc'name : c'.name = nm := (addLeafGo_name_isLeaf hrec).1.trans hcname
        have hcu : uniqb c = true := uniqb_child hu (findChild_mem hfc)
        have hc'u : uniqb c' = true := ih hrec hname2 hcu
        rw [uniqb_def] at hu ⊢
        rw [Bool.and_eq_true] at hu ⊢
        refine ⟨?_, ?_⟩
        · rw [setChild_children, nodupNames, map_name_replaceFirstNamed hc'name]
          exact hu.1
        · rw [setChild_children]
          exact uniqbList_replaceFirstNamed hc'u hu.2
    | none =>
      simp only [hfc] at h
      by_cases htl : t.isLeaf = true
      · rw [if_pos htl] at h
        exact absurd h (by simp)
      · rw [if_neg htl] at h
        simp only [Except.ok.injEq] at h
        subst h
        have htl2 : t.isLeaf = false := by simpa using htl
        have hcn : (buildChain l ((nm :: rest).dropLast)).name = nm := chain_name hname
        rw [uniqb_def] at hu
        rw [Bool.and_eq_true] at hu
        rw [uniqb_node, Bool.and_eq_true]
        refine ⟨?_, ?_⟩
        · rw [nodupNames, List.map_append, List.map_cons, List.map_nil, hcn]
          refine namesNodup_append_single hu.1 ?_
          intro n hn
          rw [List.mem_map] at hn
          obtain ⟨c, hc, hcn2⟩ := hn
          rw [← hcn2]
          exact findChild_none_not_mem htl2 hfc c hc
        · rw [uniqbList_eq_all, List.all_append, Bool.and_eq_true]
          refine ⟨by rw [← uniqbList_eq_all]; exact hu.2, ?_⟩
          simp only [List.all_cons, List.all_nil, Bool.and_true]
          exact uniqb_buildChain hlu ((nm :: rest).dropLast)

theorem uniqb_addLeaf {root : Option ETree} {l : ETree} {p : List String} {t' : ETree}
    (h : addLeaf root l p = .ok t') (hlu : uniqb l = true)
    (hn : p ≠ [] → l.name = p.getLastD "")
    (hru : ∀ r, root = some r → uniqb r = true) : uniqb t' = true := by
  cases p with
  | nil =>
    cases root with
    | some r => exact absurd h (by simp [addLeaf])
    | none =>
      simp only [addLeaf, Except.ok.injEq] at h
      subst h
      exact hlu
  | cons nm rest =>
    have hname : l.name = (nm :: rest).getLastD "" := hn (by simp)
    cases root with
    | some r => exact uniqb_addLeafGo hlu h hname (hru r rfl)
    | none =>
      simp only [addLeaf, Except.ok.injEq] at h
      subst h
      rw [uniqb_node, Bool.and_eq_true]
      refine ⟨by rw [nodupNames]; simp [namesNodup], ?_⟩
      rw [uniqbList, Bool.and_eq_true]
      exact ⟨uniqb_buildChain hlu ((nm :: rest).dropLast), by rw [uniqbList]⟩

/-- Two successive successful `addLeaf` calls force both paths non-empty and
the first path not to be a front part of the second. -/
theorem addLeaf_seq_not_prefix {root : Option ETree} {l1 l2 : ETree}
    {p1 p2 : List String} {t1 t12 : ETree}
    (hl1 : l1.isLeaf = true)
    (hn1 : p1 ≠ [] → l1.name = p1.getLastD "")
    (h1 : addLeaf root l1 p1 = .ok t1)
    (h12 : addLeaf (some t1) l2 p2 = .ok t12) :
    p1 ≠ [] ∧ p2 ≠ [] ∧ p1.isPrefixOf p2 = false := by
  have hp2 : p2 ≠ [] := by
    intro hp
    subst hp
    exact absurd h12 (by simp [addLeaf])
  have hp1 : p1 ≠ [] := by
    intro hp
    subst hp
    have hroot : root = none := by
      cases root with
      | some r => exact absurd h1 (by simp [addLeaf])
      | none => rfl
    subst hroot
    simp only [addLeaf, Except.ok.injEq] at h1
    subst h1
    cases p2 with
    | nil => exact absurd rfl hp2
    | cons nm rest =>
      have : addLeafGo l2 l1 (nm :: rest) = .ok t12 := h12
      unfold addLeafGo at this
      rw [findChild_of_isLeaf hl1 nm] at this
      rw [if_pos hl1] at this
      exact absurd this (by simp)
  refine ⟨hp1, hp2, ?_⟩
  cases hpp : p1.isPrefixOf p2 with
  | false => rfl
  | true =>
    have hget : getAt t1 p1 = some l1 := addLeaf_getAt_self h1 hn1 hp1
    obtain ⟨nm, herr⟩ := addLeafGo_leaf_on_path l2 hget hl1 hpp
    cases p2 with
    | nil => exact absurd rfl hp2
    | cons b ps =>
      have : addLeafGo l2 t1 (b :: ps) = .ok t12 := h12
      rw [herr] at this
      exact absurd this (by simp)

/-- The kind maps contributed by two adds at paths that are not front parts
of each other combine in either order to the same map. -/
theorem newNodeKindRoot_compat {p1 p2 : List String}
    (h1 : p1 ≠ []) (h2 : p2 ≠ [])
    (h12 : p1.isPrefixOf p2 = false) (h21 : p2.isPrefixOf p1 = false)
    (q : List String) :
    fb (newNodeKindRoot p1 q) (newNodeKindRoot p2 q)
      = fb (newNodeKindRoot p2 q) (newNodeKindRoot p1 q) := by
  unfold newNodeKindRoot
  by_cases hq : q = []
  · simp [hq, h1, h2, fb]
  · rw [if_neg hq, if_neg hq]
    unfold newNodeKind
    by_cases hq1 : q.isPrefixOf p1 = true
    · by_cases hq2 : q.isPrefixOf p2 = true
      · have hne1 : q ≠ p1 := by
          intro he
          subst he
          rw [hq2] at h12
          exact absurd h12 (by simp)
        have hne2 : q ≠ p2 := by
          intro he
          subst he
          rw [hq1] at h21
          exact absurd h21 (by simp)
        simp [hq, hq1, hq2, hne1, hne2, fb]
      · simp [hq, hq1, hq2, fb]
    · by_cases hq2 : q.isPrefixOf p2 = true
      · simp [hq, hq1, hq2, fb]
      · simp [hq, hq1, hq2, fb]

/-! ## Lemmas about the leaf update path -/

theorem pushUpdate_wasFirst {q : List UpdateUaSdk} {cap : Nat} {d : Bool}
    {u : UpdateUaSdk} (hcap : 1 ≤ cap) :
    ((pushUpdate q cap d u).2 = true
      ↔ (q = [] ∧ (pushUpdate q cap d u).1 ≠ [])) := by
  unfold pushUpdate
  cases q with
  | nil =>
    have hc : cap ≠ 0 := by omega
    simp [hc]
  | cons a as =>
    constructor
    · intro h
      exfalso
      by_cases hcl : cap ≤ (a :: as).length
      · rw [if_pos hcl] at h
        cases d <;> simp at h
      · rw [if_neg hcl] at h
        simp at h
    · intro h
      exact absurd h.1 (by simp)

/-! ## List indexing helpers -/

theorem getD_set_eq {α : Type} (d : α) :
    ∀ (l : List α) (i : Nat) (x : α), i < l.length → (l.set i x).getD i d = x := by
  intro l
  induction l with
  | nil => intro i x h; simp at h
  | cons a t ih =>
    intro i x h
    cases i with
    | zero => rfl
    | succ k =>
      simp only [List.set_cons_succ, List.getD_cons_succ]
      exact ih k x (by simpa using h)

theorem getD_set_ne {α : Type} (d : α) :
    ∀ (l : List α) (i k : Nat) (x : α), i ≠ k → (l.set i x).getD k d = l.getD k d := by
  intro l
  induction l with
  | nil => intro i k x _; rfl
  | cons a t ih =>
    intro i k x h
    cases i with
    | zero =>
      cases k with
      | zero => exact absurd rfl h
      | succ k2 => rfl
    | succ i2 =>
      cases k with
      | zero => rfl
      | succ k2 =>
        simp only [List.set_cons_succ, List.getD_cons_succ]
        exact ih i2 k2 x (by omega)

theorem set_getD_self {α : Type} (d : α) :
    ∀ (l : List α) (i : Nat) (x : α), l.getD i d = x → l.set i x = l := by
  intro l
  induction l with
  | nil => intro i x _; rfl
  | cons a t ih =>
    intro i x h
    cases i with
    | zero =>
      rw [List.getD_cons_zero] at h
      rw [← h]
      rfl
    | succ k =>
      rw [List.getD_cons_succ] at h
      simp only [List.set_cons_succ]
      rw [ih k x h]

theorem getD_lt_of_eq_some {l : List (Option ChildRef)} {j : Nat} {c : ChildRef}
    (h : l.getD j none = some c) : j < l.length := by
  by_contra hj
  rw [List.getD_eq_getD_get?] at h
  rw [List.get?_eq_none.mpr (by omega)] at h
  exact absurd h (by simp)

theorem all_isSome_getD {es : List (Option ChildRef)}
    (h : es.all Option.isSome = true) {j : Nat} (hj : j < es.length) :
    ∃ c, es.getD j none = some c := by
  rw [List.all_eq_true] at h
  have hget : es.getD j none = es.get ⟨j, hj⟩ := by
    rw [List.getD_eq_getD_get?, List.get?_eq_get hj]
    rfl
  have hmem : es.get ⟨j, hj⟩ ∈ es := es.get_mem j hj
  have hsome := h _ hmem
  cases hx : es.get ⟨j, hj⟩ with
  | none => rw [hx] at hsome; exact absurd hsome (by simp)
  | some c => exact ⟨c, by rw [hget, hx]⟩

theorem all_isSome_set {es : List (Option ChildRef)} {j : Nat} {c : ChildRef}
    (h : es.all Option.isSome = true) :
    (es.set j (some c)).all Option.isSome = true := by
  rw [List.all_eq_true] at h ⊢
  intro x hx
  rcases List.mem_or_eq_of_mem_set hx with hmem | heq
  · exact h x hmem
  · rw [heq]; rfl

/-! ## Lemmas about the vertex mapping and dispatch -/

theorem insertMapEntry_mem {m : List (Nat × Nat)} {k j : Nat} :
    ∀ e ∈ insertMapEntry m k j, e ∈ m ∨ e = (k, j) := by
  intro e he
  unfold insertMapEntry at he
  split at he
  · exact Or.inl he
  · rcases List.mem_append.mp he with h | h
    · exact Or.inl h
    · exact Or.inr (by simpa using h)

theorem mapChildren_fold_mem (d : UaStructureDefinition) (cname : String) (j0 : Nat) :
    ∀ (idxs : List Nat) (m0 : List (Nat × Nat)) (e : Nat × Nat),
      e ∈ idxs.foldl
          (fun acc i => if d.childNames.get? i = some cname then insertMapEntry acc i j0 else acc)
          m0 →
      e ∈ m0 ∨ e.2 = j0 := by
  intro idxs
  induction idxs with
  | nil => intro m0 e he; exact Or.inl he
  | cons i idxs ih =>
    intro m0 e he
    rw [List.foldl_cons] at he
    rcases ih _ e he with hin | hj
    · by_cases hc : d.childNames.get? i = some cname
      · rw [if_pos hc] at hin
        rcases insertMapEntry_mem e hin with h2 | h2
        · exact Or.inl h2
        · exact Or.inr (by rw [h2])
      · rw [if_neg hc] at hin
        exact Or.inl hin
    · exact Or.inr hj

theorem mapChildrenAux_snd_lt (d : UaStructureDefinition) :
    ∀ (es : List (Option ChildRef)) (j0 : Nat) (m0 m : List (Nat × Nat)),
      mapChildrenAux d es j0 m0 = some m →
      (∀ e ∈ m0, e.2 < j0) → ∀ e ∈ m, e.2 < j0 + es.length := by
  intro es
  induction es with
  | nil =>
    intro j0 m0 m h h0 e he
    unfold mapChildrenAux at h
    simp only [Option.some.injEq] at h
    subst h
    have := h0 e he
    simpa using Nat.lt_of_lt_of_le this (Nat.le_refl j0)
  | cons s rest ih =>
    intro j0 m0 m h h0 e he
    cases s with
    | none => exact absurd h (by unfold mapChildrenAux; simp)
    | some c =>
      unfold mapChildrenAux at h
      have hstep := ih (j0 + 1) _ m h ?_ e he
      · simpa [Nat.add_assoc, Nat.add_comm 1 rest.length] using hstep
      · intro e2 he2
        rcases mapChildren_fold_mem d c.name j0 _ m0 e2 he2 with hin | hj
        · exact Nat.lt_succ_of_lt (h0 e2 hin)
        · omega

theorem mapChildrenAux_some (d : UaStructureDefinition) :
    ∀ (es : List (Option ChildRef)) (j0 : Nat) (m0 : List (Nat × Nat)),
      es.all Option.isSome = true → ∃ m, mapChildrenAux d es j0 m0 = some m := by
  intro es
  induction es with
  | nil => intro j0 m0 _; exact ⟨m0, rfl⟩
  | cons s rest ih =>
    intro j0 m0 h
    cases s with
    | none => exact absurd h (by simp)
    | some c =>
      obtain ⟨m, hm⟩ := ih (j0 + 1)
        ((List.range d.childNames.length).foldl
          (fun acc i => if d.childNames.get? i = some c.name then insertMapEntry acc i j0 else acc)
          m0)
        (by simpa using h)
      exact ⟨m, by unfold mapChildrenAux; exact hm⟩

theorem dispatchIncoming_some (fields : List UaVariant) :
    ∀ (m : List (Nat × Nat)) (es : List (Option ChildRef)),
      (∀ e ∈ m, e.2 < es.length) → es.all Option.isSome = true →
      ∃ es', dispatchIncoming fields m es = some es'
        ∧ es'.length = es.length ∧ es'.all Option.isSome = true := by
  intro m
  induction m with
  | nil => intro es _ hall; exact ⟨es, rfl, rfl, hall⟩
  | cons e0 rest ih =>
    intro es hlt hall
    obtain ⟨i, j⟩ := e0
    have hj : j < es.length := hlt (i, j) (by simp)
    obtain ⟨c, hc⟩ := all_isSome_getD hall hj
    have hall2 := all_isSome_set (j := j)
      (c := { c with incomingData := genericValueField fields i }) hall
    obtain ⟨es', hes', hlen, hall'⟩ := ih
      (es.set j (some { c with incomingData := genericValueField fields i }))
      (fun e he => by rw [List.length_set]; exact hlt e (by simp [he]))
      hall2
    refine ⟨es', ?_, by rw [hlen, List.length_set], hall'⟩
    unfold dispatchIncoming
    simp only [hc]
    rw [hes']

theorem setIncoming_preserves_map {lookup : StructureLookup} {v : DataElementVertex}
    {val : UaVariant} {v2 : DataElementVertex} (hm : v.mapped = true)
    (h : vertexSetIncomingEventData lookup v val = some v2) :
    v2.elementMap = v.elementMap ∧ v2.mapped = true := by
  unfold vertexSetIncomingEventData at h
  cases val with
  | null =>
    simp only [Option.some.injEq] at h
    subst h
    exact ⟨rfl, hm⟩
  | scalar n =>
    simp only [Option.some.injEq] at h
    subst h
    exact ⟨rfl, hm⟩
  | extObj tid fields =>
    cases hlk : lookup tid with
    | none =>
      simp only [hlk, Option.some.injEq] at h
      subst h
      exact ⟨rfl, hm⟩
    | some d =>
      simp only [hlk] at h
      by_cases hu : d.isUnion = true
      · rw [if_pos hu] at h
        simp only [Option.some.injEq] at h
        subst h
        exact ⟨rfl, hm⟩
      · rw [if_neg hu] at h
        simp only [hm, eq_self_iff_true, if_true] at h
        cases hd : dispatchIncoming fields v.elementMap v.elements with
        | none => rw [hd] at h; exact absurd h (by simp)
        | some es =>
          rw [hd] at h
          simp only [Option.some.injEq] at h
          subst h
          exact ⟨rfl, rfl⟩

theorem getOutgoing_preserves_map {lookup : StructureLookup} {v v2 : DataElementVertex}
    {out : UaVariant} (hm : v.mapped = true)
    (h : vertexGetOutgoingData lookup v = some (v2, out)) :
    v2.elementMap = v.elementMap ∧ v2.mapped = true := by
  unfold vertexGetOutgoingData at h
  cases hic : v.incomingData with
  | null =>
    rw [hic] at h
    simp only [Prod.mk.injEq, Option.some.injEq] at h
    obtain ⟨h1, _⟩ := h
    subst h1
    exact ⟨rfl, hm⟩
  | scalar n =>
    rw [hic] at h
    simp only [Prod.mk.injEq, Option.some.injEq] at h
    obtain ⟨h1, _⟩ := h
    subst h1
    exact ⟨rfl, hm⟩
  | extObj tid fields =>
    rw [hic] at h
    cases hlk : lookup tid with
    | none =>
      simp only [hlk, Prod.mk.injEq, Option.some.injEq] at h
      obtain ⟨h1, _⟩ := h
      subst h1
      exact ⟨rfl, hm⟩
    | some d =>
      simp only [hlk] at h
      by_cases hu : d.isUnion = true
      · rw [if_pos hu] at h
        simp only [Prod.mk.injEq, Option.some.injEq] at h
        obtain ⟨h1, _⟩ := h
        subst h1
        exact ⟨rfl, hm⟩
      · rw [if_neg hu] at h
        simp only [hm, eq_self_iff_true, if_true] at h
        cases he : encodeOutgoingAux v.elementMap fields v.elements false with
        | none => rw [he] at h; exact absurd h (by simp)
        | some r =>
          obtain ⟨fs, es, dirty⟩ := r
          rw [he] at h
          cases dirty with
          | true =>
            simp only [eq_self_iff_true, if_true, Prod.mk.injEq, Option.some.injEq] at h
            obtain ⟨h1, _⟩ := h
            subst h1
            exact ⟨rfl, rfl⟩
          | false =>
            simp only [Bool.false_eq_true, if_false, Prod.mk.injEq, Option.some.injEq] at h
            obtain ⟨h1, _⟩ := h
            subst h1
            exact ⟨rfl, rfl⟩

theorem encodeOutgoingAux_spec :
    ∀ (m : List (Nat × Nat)) (fs : List UaVariant) (es : List (Option ChildRef))
      (dirty : Bool),
      (∀ e ∈ m, (es.getD e.2 none).isSome = true) →
      (m.map Prod.fst).Nodup → (m.map Prod.snd).Nodup →
      (∀ e ∈ m, e.1 < fs.length) →
      ∃ fs' es' dirty',
        encodeOutgoingAux m fs es dirty = some (fs', es', dirty')
        ∧ fs'.length = fs.length ∧ es'.length = es.length
        ∧ dirty' = (dirty || m.any (childDirtyb es))
        ∧ (m.all (fun e => ! childDirtyb es e) = true → fs' = fs ∧ es' = es)
        ∧ (∀ i j, (i, j) ∈ m → ∀ c, es.getD j none = some c →
             (c.isdirty = true → fs'.getD i .null = c.outgoingData
                ∧ es'.getD j none = some { c with isdirty := false })
             ∧ (c.isdirty = false → fs'.getD i .null = fs.getD i .null
                ∧ es'.getD j none = some c))
        ∧ (∀ k, (∀ j, (k, j) ∉ m) → fs'.getD k .null = fs.getD k .null)
        ∧ (∀ j, (∀ i, (i, j) ∉ m) → es'.getD j none = es.getD j none) := by
  intro m
  induction m with
  | nil =>
    intro fs es dirty _ _ _ _
    exact ⟨fs, es, dirty, rfl, rfl, rfl, by simp, fun _ => ⟨rfl, rfl⟩,
           by simp, fun _ _ => rfl, fun _ _ => rfl⟩
  | cons e0 rest ih =>
    obtain ⟨i, j⟩ := e0
    intro fs es dirty halive hkeys hpos hidx
    have hslot : (es.getD j none).isSome = true := halive (i, j) (by simp)
    obtain ⟨c, hc⟩ : ∃ c, es.getD j none = some c := by
      cases hx : es.getD j none with
      | none => rw [hx] at hslot; exact absurd hslot (by simp)
      | some c => exact ⟨c, rfl⟩
    have hjlen : j < es.length := getD_lt_of_eq_some hc
    have hilen : i < fs.length := hidx (i, j) (by simp)
    have hknd : (∀ x, (i, x) ∉ rest) ∧ (rest.map Prod.fst).Nodup := by simpa using hkeys
    have hpnd : (∀ x, (x, j) ∉ rest) ∧ (rest.map Prod.snd).Nodup := by simpa using hpos
    have hrest_i : ∀ e ∈ rest, e.1 ≠ i := by
      intro e he hei
      apply hknd.1 e.2
      rw [← hei]
      exact he
    have hrest_j : ∀ e ∈ rest, e.2 ≠ j := by
      intro e he hej
      apply hpnd.1 e.1
      rw [← hej]
      exact he
    cases hcd : c.isdirty with
    | true =>
      obtain ⟨fs', es', dirty', hrun, hflen, helen, hd', hclean', hentry', hkeys', hpos'⟩ :=
        ih (fs.set i c.outgoingData) (es.set j (some { c with isdirty := false }))
          (dirty || true)
          (by
            intro e he
            rw [getD_set_ne none es j e.2 _ (Ne.symm (hrest_j e he))]
            exact halive e (by simp [he]))
          hknd.2 hpnd.2
          (by
            intro e he
            rw [List.length_set]
            exact hidx e (by simp [he]))
      refine ⟨fs', es', dirty', ?_, ?_, ?_, ?_, ?_, ?_, ?_, ?_⟩
      · unfold encodeOutgoingAux
        simp only [hc, updateDataInGenericValue, hcd, if_true]
        exact hrun
      · rw [hflen, List.length_set]
      · rw [helen, List.length_set]
      · rw [hd']
        have hcdb : childDirtyb es (i, j) = true := by
          unfold childDirtyb
          rw [hc]
          exact hcd
        simp [hcdb]
      · intro habs
        have hcdb : childDirtyb es (i, j) = true := by
          unfold childDirtyb
          rw [hc]
          exact hcd
        rw [List.all_cons] at habs
        simp [hcdb] at habs
      · intro i2 j2 hmem c2 hc2
        rcases List.mem_cons.mp hmem with hhd | htl
        · cases hhd
          have hc2c : c2 = c := by
            rw [hc] at hc2
            exact (Option.some.inj hc2).symm
          subst hc2c
          refine ⟨fun _ => ⟨?_, ?_⟩, fun hfalse => absurd hcd (by simp [hfalse])⟩
          · rw [hkeys' i hknd.1]
            exact getD_set_eq UaVariant.null fs i _ hilen
          · rw [hpos' j hpnd.1]
            exact getD_set_eq none es j _ hjlen
        · have hne_j : j2 ≠ j := hrest_j (i2, j2) htl
          have hne_i : i2 ≠ i := hrest_i (i2, j2) htl
          have hc2b : (es.set j (some { c with isdirty := false })).getD j2 none = some c2 := by
            rw [getD_set_ne none es j j2 _ (Ne.symm hne_j)]
            exact hc2
          have hent := hentry' i2 j2 htl c2 hc2b
          refine ⟨hent.1, fun hd2 => ?_⟩
          have h2 := hent.2 hd2
          refine ⟨?_, h2.2⟩
          rw [h2.1]
          exact getD_set_ne UaVariant.null fs i i2 _ (Ne.symm hne_i)
      · intro k hk2
        have hki : k ≠ i := by
          intro h
          exact hk2 j (by rw [h]; exact List.mem_cons_self _ _)
        rw [hkeys' k (fun j2 hj2 => hk2 j2 (List.mem_cons_of_mem _ hj2))]
        exact getD_set_ne UaVariant.null fs i k _ (Ne.symm hki)
      · intro j2 hj2
        have hjj : j2 ≠ j := by
          intro h
          exact hj2 i (by rw [h]; exact List.mem_cons_self _ _)
        rw [hpos' j2 (fun i2 hi2 => hj2 i2 (List.mem_cons_of_mem _ hi2))]
        exact getD_set_ne none es j j2 _ (Ne.symm hjj)
    | false =>
      have hset : es.set j (some c) = es := set_getD_self none es j (some c) hc
      obtain ⟨fs', es', dirty', hrun, hflen, helen, hd', hclean', hentry', hkeys', hpos'⟩ :=
        ih fs es dirty
          (fun e he => halive e (by simp [he]))
          hknd.2 hpnd.2
          (fun e he => hidx e (by simp [he]))
      refine ⟨fs', es', dirty', ?_, hflen, helen, ?_, ?_, ?_, ?_, ?_⟩
      · unfold encodeOutgoingAux
        simp only [hc, updateDataInGenericValue, hcd, Bool.false_eq_true, if_false,
                   hset, Bool.or_false]
        exact hrun
      · rw [hd']
        have hcdb : childDirtyb es (i, j) = false := by
          unfold childDirtyb
          rw [hc]
          exact hcd
        simp [hcdb]
      · intro hall
        rw [List.all_cons, Bool.and_eq_true] at hall
        exact hclean' hall.2
      · intro i2 j2 hmem c2 hc2
        rcases List.mem_cons.mp hmem with hhd | htl
        · cases hhd
          have hc2c : c2 = c := by
            rw [hc] at hc2
            exact (Option.some.inj hc2).symm
          subst hc2c
          refine ⟨fun hd2 => absurd hd2 (by simp [hcd]), fun _ => ⟨?_, ?_⟩⟩
          · exact hkeys' i hknd.1
          · rw [hpos' j hpnd.1]
            exact hc
        · exact hentry' i2 j2 htl c2 hc2
      · intro k hk2
        exact hkeys' k (fun j2 hj2 => hk2 j2 (List.mem_cons_of_mem _ hj2))
      · intro j2 hj2
        exact hpos' j2 (fun i2 hi2 => hj2 i2 (List.mem_cons_of_mem _ hi2))

theorem vertexGetOutgoingData_run {lookup : StructureLookup} {v : DataElementVertex}
    {tid : Nat} {fields : List UaVariant} {names : List String}
    {fs' : List UaVariant} {es' : List (Option ChildRef)} {dirty' : Bool}
    (hin : v.incomingData = .extObj tid fields)
    (hdef : lookup tid = some ⟨false, names⟩)
    (hmapped : v.mapped = true)
    (henc : encodeOutgoingAux v.elementMap fields v.elements false
              = some (fs', es', dirty')) :
    vertexGetOutgoingData lookup v
      = if dirty' = true
        then some ({ v with
                      outgoingData := .extObj tid fs'
                      isdirty := true
                      elements := es'
                      mapped := true }, .extObj tid fs')
        else some ({ v with
                      outgoingData := .extObj tid fields
                      isdirty := false
                      elements := es'
                      mapped := true }, .extObj tid fields) := by
  unfold vertexGetOutgoingData
  simp only [hin, hdef, hmapped, eq_self_iff_true, if_true, Bool.false_eq_true, if_false,
             henc]

/-- C3: splitLastName on "lev1.lev2.lev3" yields name "lev3" and remaining
path "lev1.lev2"; on the empty path it yields the reserved root label
"<ROOT>" and leaves the path empty; on "lev1.lev2\\.lev3" it yields name
"lev2.lev3" (escape character removed, the escaped separator kept literally
inside the name) and remaining path "lev1". -/
theorem splitLastName_examples :
    splitLastName ("lev1.lev2.lev3".toList) '.' = .ok ("lev3".toList, "lev1.lev2".toList)
    ∧ splitLastName ([] : List Char) '.' = .ok ("<ROOT>".toList, [])
    ∧ splitLastName ("lev1.lev2\\.lev3".toList) '.'
        = .ok ("lev2.lev3".toList, "lev1".toList) := by
  refine ⟨by decide, by decide, by decide⟩

/-- C1 (counterexample): adding a second leaf with the exact same non-empty
full path does not fail with the duplicate-root error: the matched node is
the first leaf, and the leaf check precedes the root check, so the error is
the leaf-extension error.  First add at path "a" into the empty tree, then a
second add at the same path: the result is `leafExists "a"`, which is not
`rootExists`. -/
theorem addLeaf_same_path_counterexample :
    addLeaf none (ETree.node "a" true []) ["a"]
      = .ok (ETree.node "[ROOT]" false [ETree.node "a" true []])
    ∧ addLeaf (some (ETree.node "[ROOT]" false [ETree.node "a" true []]))
        (ETree.node "a" true []) ["a"] = .error (.leafExists "a")
    ∧ AddErr.leafExists "a" ≠ AddErr.rootExists :=
  ⟨rfl, rfl, by decide⟩

/-- C1 (amended): `addLeaf` fails synchronously with the configuration error
"cannot add leaf to existing leaf" whenever the path resolves through (or
exactly onto) an existing leaf and the path is non-empty — in particular a
second `addLeaf` with the exact same non-empty full path fails with that leaf
error, naming the previously added leaf; the "root already exists" error is
raised only when the full path is empty or matches an existing vertex
node. -/
theorem addLeaf_error_cases (t l2 x : ETree) (p q : List String) :
    (getAt t q = some x → x.isLeaf = true → q.isPrefixOf p = true → p ≠ [] →
       ∃ nm, addLeaf (some t) l2 p = .error (.leafExists nm))
    ∧ (getAt t p = some x → x.isLeaf = true → p ≠ [] →
       addLeaf (some t) l2 p = .error (.leafExists x.name))
    ∧ (p = [] → addLeaf (some t) l2 p = .error .rootExists)
    ∧ (getAt t p = some x → x.isLeaf = false →
       addLeaf (some t) l2 p = .error .rootExists)
    ∧ (∀ (root : Option ETree) (l1 t' : ETree), l1.isLeaf = true →
        (p ≠ [] → l1.name = p.getLastD "") → addLeaf root l1 p = .ok t' → p ≠ [] →
        addLeaf (some t') l2 p = .error (.leafExists l1.name)) := by
  refine ⟨?_, ?_, ?_, ?_, ?_⟩
  · intro hg hx hpre hp
    cases p with
    | nil => exact absurd rfl hp
    | cons nm rest => exact addLeafGo_leaf_on_path l2 hg hx hpre
  · intro hg hx hp
    cases p with
    | nil => exact absurd rfl hp
    | cons nm rest => exact addLeafGo_exact_leaf l2 hg hx
  · intro hp
    subst hp
    rfl
  · intro hg hx
    cases p with
    | nil => rfl
    | cons nm rest => exact addLeafGo_exact_vertex l2 hg hx
  · intro root l1 t' hl1 hn1 h1 hp
    have hg : getAt t' p = some l1 := addLeaf_getAt_self h1 hn1 hp
    cases p with
    | nil => exact absurd rfl hp
    | cons nm rest => exact addLeafGo_exact_leaf l2 hg hl1

/-- C1 (witness): concrete duplicate add — after placing leaf "a" at path
"a", a second add at path "a" raises the leaf-extension error naming "a". -/
theorem addLeaf_error_cases_witness :
    addLeaf (some (ETree.node "[ROOT]" false [ETree.node "a" true []]))
        (ETree.node "a" true []) ["a"] = .error (.leafExists "a") :=
  (addLeaf_error_cases (ETree.node "[ROOT]" false [ETree.node "a" true []])
      (ETree.node "a" true []) (ETree.node "a" true []) ["a"] []).2.2.2.2
    none (ETree.node "a" true [])
    (ETree.node "[ROOT]" false [ETree.node "a" true []])
    rfl (fun _ => rfl) rfl (by simp)

/-- C2: adding two leaves in either order (both orders succeeding) yields
trees with the same nodes and the same parent and child relations — the
path-to-kind maps agree everywhere — and the resulting tree represents every
shared path prefix by a single chain (no two children of a node carry the
same name). -/
theorem addLeaf_order_independent
    (root : Option ETree) (l1 l2 : ETree) (p1 p2 : List String)
    (t1 t12 t2 t21 : ETree)
    (hl1 : l1.isLeaf = true) (hc1 : l1.children = [])
    (hn1 : p1 ≠ [] → l1.name = p1.getLastD "")
    (hl2 : l2.isLeaf = true) (hc2 : l2.children = [])
    (hn2 : p2 ≠ [] → l2.name = p2.getLastD "")
    (hru : ∀ r, root = some r → uniqb r = true)
    (h1 : addLeaf root l1 p1 = .ok t1)
    (h12 : addLeaf (some t1) l2 p2 = .ok t12)
    (h2 : addLeaf root l2 p2 = .ok t2)
    (h21 : addLeaf (some t2) l1 p1 = .ok t21) :
    (∀ q, cp t12 q = cp t21 q) ∧ uniqb t12 = true := by
  obtain ⟨hp1, hp2, h12p⟩ := addLeaf_seq_not_prefix hl1 hn1 h1 h12
  obtain ⟨_, _, h21p⟩ := addLeaf_seq_not_prefix hl2 hn2 h2 h21
  constructor
  · intro q
    rw [cp_addLeaf hl2 h12 hn2 q, cp_addLeaf hl1 h21 hn1 q]
    simp only [cpo]
    rw [cp_addLeaf hl1 h1 hn1 q, cp_addLeaf hl2 h2 hn2 q]
    rw [fb_assoc, fb_assoc]
    exact congrArg (fb (cpo root q)) (newNodeKindRoot_compat hp1 hp2 h12p h21p q)
  · have u1 : uniqb t1 = true := uniqb_addLeaf h1 (uniqb_of_children_nil hc1) hn1 hru
    exact uniqb_addLeaf h12 (uniqb_of_children_nil hc2) hn2
      (fun r hr => by cases hr; exact u1)

/-- C2 (witness): leaves at "a.x" and "a.y" added in the two orders into the
empty tree give trees with identical path-to-kind maps, and the shared
prefix "a" is a single vertex chain. -/
theorem addLeaf_order_independent_witness :
    (∀ q, cp (ETree.node "[ROOT]" false
                [ETree.node "a" false [ETree.node "x" true [], ETree.node "y" true []]]) q
        = cp (ETree.node "[ROOT]" false
                [ETree.node "a" false [ETree.node "y" true [], ETree.node "x" true []]]) q)
    ∧ uniqb (ETree.node "[ROOT]" false
        [ETree.node "a" false [ETree.node "x" true [], ETree.node "y" true []]]) = true :=
  addLeaf_order_independent none (ETree.node "x" true []) (ETree.node "y" true [])
    ["a", "x"] ["a", "y"]
    (ETree.node "[ROOT]" false [ETree.node "a" false [ETree.node "x" true []]])
    (ETree.node "[ROOT]" false
      [ETree.node "a" false [ETree.node "x" true [], ETree.node "y" true []]])
    (ETree.node "[ROOT]" false [ETree.node "a" false [ETree.node "y" true []]])
    (ETree.node "[ROOT]" false
      [ETree.node "a" false [ETree.node "y" true [], ETree.node "x" true []]])
    rfl rfl (fun _ => rfl) rfl rfl (fun _ => rfl)
    (fun _ hr => nomatch hr) rfl rfl rfl rfl

/-- C9: every successful `addLeaf` call preserves the single-root discipline:
when the tree already had a root, the result keeps that root node (same name
and same kind) and every existing node keeps its kind at its path; a new
root is installed only into an empty tree — the leaf itself for the empty
path, a fresh anonymous "[ROOT]" vertex otherwise. -/
theorem addLeaf_single_root (root : Option ETree) (l : ETree) (p : List String)
    (t' : ETree) (hl : l.isLeaf = true) (hn : p ≠ [] → l.name = p.getLastD "")
    (h : addLeaf root l p = .ok t') :
    (∀ r, root = some r → t'.name = r.name ∧ t'.isLeaf = r.isLeaf
        ∧ ∀ q k, cp r q = some k → cp t' q = some k)
    ∧ (root = none → (p = [] → t' = l)
        ∧ (p ≠ [] → t'.name = "[ROOT]" ∧ t'.isLeaf = false)) := by
  constructor
  · intro r hr
    subst hr
    have hpres : ∀ q k, cp r q = some k → cp t' q = some k := by
      intro q k hk
      rw [cp_addLeaf hl h hn q]
      simp only [cpo]
      rw [hk, fb_some]
    cases p with
    | nil => exact absurd h (by simp [addLeaf])
    | cons nm rest =>
      have hgo : addLeafGo l r (nm :: rest) = .ok t' := h
      exact ⟨(addLeafGo_name_isLeaf hgo).1, (addLeafGo_name_isLeaf hgo).2, hpres⟩
  · intro hr
    subst hr
    constructor
    · intro hp
      subst hp
      simp only [addLeaf, Except.ok.injEq] at h
      exact h.symm
    · intro hp
      cases p with
      | nil => exact absurd rfl hp
      | cons nm rest =>
        simp only [addLeaf, Except.ok.injEq] at h
        subst h
        exact ⟨rfl, rfl⟩

/-- C9 (witness): adding leaf "b" at path "b" into a tree that already has a
root keeps the root node and the kind of the existing leaf "a". -/
theorem addLeaf_single_root_witness :
    (∀ r, some (ETree.node "[ROOT]" false [ETree.node "a" true []]) = some r →
        (ETree.node "[ROOT]" false
          [ETree.node "a" true [], ETree.node "b" true []]).name = r.name
        ∧ (ETree.node "[ROOT]" false
            [ETree.node "a" true [], ETree.node "b" true []]).isLeaf = r.isLeaf
        ∧ ∀ q k, cp r q = some k →
            cp (ETree.node "[ROOT]" false
              [ETree.node "a" true [], ETree.node "b" true []]) q = some k)
    ∧ (some (ETree.node "[ROOT]" false [ETree.node "a" true []]) = none →
        ((["b"] : List String) = [] →
          ETree.node "[ROOT]" false [ETree.node "a" true [], ETree.node "b" true []]
            = ETree.node "b" true [])
        ∧ ((["b"] : List String) ≠ [] →
            (ETree.node "[ROOT]" false
              [ETree.node "a" true [], ETree.node "b" true []]).name = "[ROOT]"
            ∧ (ETree.node "[ROOT]" false
                [ETree.node "a" true [], ETree.node "b" true []]).isLeaf = false)) :=
  addLeaf_single_root (some (ETree.node "[ROOT]" false [ETree.node "a" true []]))
    (ETree.node "b" true []) ["b"]
    (ETree.node "[ROOT]" false [ETree.node "a" true [], ETree.node "b" true []])
    rfl (fun _ => rfl) rfl

/-- C5: for a leaf with a positive queue capacity, an incoming push (with or
without a value) invokes the connector processing request exactly when that
push transitioned the incoming queue from empty to non-empty; a push onto an
already non-empty queue triggers no request.  For the data variant the
connection-state guard must admit the push at all. -/
theorem leaf_wake_once (state : ConnectionStatus) (ts status : Nat)
    (e : DataElementLeaf) (reason : ProcessReason) (value : UaVariant)
    (hcap : 1 ≤ e.clientQueueSize) :
    (((state = .initialRead ∧ reason = .readComplete) ∨ state = .up) →
       ((leafSetIncomingEventData state ts status e reason value).2 = true
         ↔ (e.incomingQueue = []
             ∧ (leafSetIncomingEventData state ts status e reason value).1.incomingQueue
                 ≠ [])))
    ∧ ((leafSetIncomingEventNoData ts e reason).2 = true
         ↔ (e.incomingQueue = []
             ∧ (leafSetIncomingEventNoData ts e reason).1.incomingQueue ≠ [])) := by
  constructor
  · intro hg
    unfold leafSetIncomingEventData
    rw [if_pos hg]
    simpa using pushUpdate_wasFirst hcap
  · unfold leafSetIncomingEventNoData
    simpa using pushUpdate_wasFirst hcap

/-- C5 (witness): pushing onto an empty queue of capacity 2 in steady state
requests processing exactly once (the flag is true and the queue became
non-empty). -/
theorem leaf_wake_once_witness :
    ((leafSetIncomingEventData .up 1 0 ⟨"l", .null, [], 2, true⟩
        .incomingData (.scalar 3)).2 = true
      ↔ (([] : List UpdateUaSdk) = []
          ∧ (leafSetIncomingEventData .up 1 0 ⟨"l", .null, [], 2, true⟩
              .incomingData (.scalar 3)).1.incomingQueue ≠ [])) :=
  (leaf_wake_once .up 1 0 ⟨"l", .null, [], 2, true⟩ .incomingData (.scalar 3)
    (by decide)).1 (Or.inr rfl)

/-- C6: a data update arriving while the item state is the initial read is
dropped (queue untouched, no processing request, only the incoming cache is
updated) unless its reason is the read completion; the update is offered to
the queue in steady state, and during the initial read exactly for the
read-complete reason. -/
theorem leaf_initial_read_suppression (state : ConnectionStatus) (ts status : Nat)
    (e : DataElementLeaf) (reason : ProcessReason) (value : UaVariant) :
    (state = .initialRead → reason ≠ .readComplete →
       leafSetIncomingEventData state ts status e reason value
         = ({ e with incomingData := value }, false))
    ∧ (state = .up →
       (leafSetIncomingEventData state ts status e reason value).1.incomingQueue
         = (pushUpdate e.incomingQueue e.clientQueueSize e.discardOldest
             ⟨ts, reason, some value, status⟩).1)
    ∧ (state = .initialRead → reason = .readComplete →
       (leafSetIncomingEventData state ts status e reason value).1.incomingQueue
         = (pushUpdate e.incomingQueue e.clientQueueSize e.discardOldest
             ⟨ts, reason, some value, status⟩).1) := by
  refine ⟨?_, ?_, ?_⟩
  · intro hs hr
    subst hs
    unfold leafSetIncomingEventData
    rw [if_neg]
    simp [hr]
  · intro hs
    subst hs
    unfold leafSetIncomingEventData
    rw [if_pos (Or.inr rfl)]
  · intro hs hr
    subst hs
    subst hr
    unfold leafSetIncomingEventData
    rw [if_pos (Or.inl ⟨rfl, rfl⟩)]

/-- C6 (witness): during the initial read, a plain data update is suppressed
(state unchanged but for the cache, no request), while in steady state the
update is offered to the queue. -/
theorem leaf_initial_read_suppression_witness :
    leafSetIncomingEventData .initialRead 1 0 ⟨"l", .null, [], 2, true⟩
        .incomingData (.scalar 3)
      = ({ (⟨"l", .null, [], 2, true⟩ : DataElementLeaf) with
            incomingData := UaVariant.scalar 3 }, false) :=
  (leaf_initial_read_suppression .initialRead 1 0 ⟨"l", .null, [], 2, true⟩
    .incomingData (.scalar 3)).1 rfl (by decide)

/-- C10 (failing input): a vertex with one expired child weak reference: each
of the three fan-out operations — the value-less event fan-out, the
record-processing fan-out, and the child mapping — locks the child pointer
and dereferences it without a null check, hitting the null pointer: the
model reports the undefined-behaviour outcome. -/
theorem vertex_fanout_expired_child_deref :
    vertexSetIncomingEventNoData
        ⟨"v", .null, .null, false, [some ⟨"x", .null, false, .null⟩, none],
         [(0, 1)], true⟩ = none
    ∧ vertexRequestRecordProcessing
        ⟨"v", .null, .null, false, [some ⟨"x", .null, false, .null⟩, none],
         [(0, 1)], true⟩ = none
    ∧ mapChildren [some ⟨"x", .null, false, .null⟩, none] ⟨false, ["x"]⟩ = none :=
  ⟨rfl, rfl, rfl⟩

/-- C7: with all children alive and a non-union structure definition
available, the first structured `setIncomingEvent` of an unmapped vertex
builds the index-to-child map by name matching and sets `mapped`; every
subsequent structured `setIncomingEvent` or `getOutgoingData` leaves the map
and the `mapped` flag unchanged, so performing the operation twice leaves
the same map as performing it once. -/
theorem mapChildren_memoized (lookup : StructureLookup) (v : DataElementVertex)
    (tid : Nat) (fields : List UaVariant) (names : List String)
    (hdef : lookup tid = some ⟨false, names⟩)
    (hunmapped : v.mapped = false)
    (halive : v.elements.all Option.isSome = true) :
    ∃ v1, vertexSetIncomingEventData lookup v (.extObj tid fields) = some v1
      ∧ v1.mapped = true
      ∧ mapChildren v.elements ⟨false, names⟩ = some v1.elementMap
      ∧ (∀ (val2 : UaVariant) (v2 : DataElementVertex),
           vertexSetIncomingEventData lookup v1 val2 = some v2 →
             v2.elementMap = v1.elementMap ∧ v2.mapped = true)
      ∧ (∀ (v2 : DataElementVertex) (out : UaVariant),
           vertexGetOutgoingData lookup v1 = some (v2, out) →
             v2.elementMap = v1.elementMap ∧ v2.mapped = true) := by
  obtain ⟨m, hm⟩ := mapChildrenAux_some ⟨false, names⟩ v.elements 0 [] halive
  have hmc : mapChildren v.elements ⟨false, names⟩ = some m := hm
  have hlt : ∀ e ∈ m, e.2 < v.elements.length := by
    intro e he
    have := mapChildrenAux_snd_lt ⟨false, names⟩ v.elements 0 [] m hm
      (by intro e2 he2; simp at he2) e he
    simpa using this
  obtain ⟨es', hes', hlen, hall'⟩ := dispatchIncoming_some fields m v.elements hlt halive
  refine ⟨{ v with
              incomingData := .extObj tid fields
              elementMap := m
              mapped := true
              elements := es' }, ?_, rfl, hmc, ?_, ?_⟩
  · unfold vertexSetIncomingEventData
    simp only [hdef, hunmapped, Bool.false_eq_true, if_false, hmc, hes']
  · intro val2 v2 h2
    exact setIncoming_preserves_map rfl h2
  · intro v2 out h2
    exact getOutgoing_preserves_map rfl h2

/-- C7 (witness): a vertex with children "x" and "y", a structure with
fields "x", "y" — the first structured push builds the map once; the
conclusion delivers the reuse guarantees for the subsequent operations. -/
theorem mapChildren_memoized_witness :
    ∃ v1, vertexSetIncomingEventData
        (fun t => if t = 7 then some ⟨false, ["x", "y"]⟩ else none)
        ⟨"v", .null, .null, false,
         [some ⟨"x", .null, false, .null⟩, some ⟨"y", .null, false, .null⟩], [], false⟩
        (.extObj 7 [.scalar 1, .scalar 2]) = some v1
      ∧ v1.mapped = true
      ∧ mapChildren
          [some ⟨"x", .null, false, .null⟩, some ⟨"y", .null, false, .null⟩]
          ⟨false, ["x", "y"]⟩ = some v1.elementMap
      ∧ (∀ (val2 : UaVariant) (v2 : DataElementVertex),
           vertexSetIncomingEventData
             (fun t => if t = 7 then some ⟨false, ["x", "y"]⟩ else none) v1 val2
               = some v2 →
             v2.elementMap = v1.elementMap ∧ v2.mapped = true)
      ∧ (∀ (v2 : DataElementVertex) (out : UaVariant),
           vertexGetOutgoingData
             (fun t => if t = 7 then some ⟨false, ["x", "y"]⟩ else none) v1
               = some (v2, out) →
             v2.elementMap = v1.elementMap ∧ v2.mapped = true) :=
  mapChildren_memoized (fun t => if t = 7 then some ⟨false, ["x", "y"]⟩ else none)
    ⟨"v", .null, .null, false,
     [some ⟨"x", .null, false, .null⟩, some ⟨"y", .null, false, .null⟩], [], false⟩
    7 [.scalar 1, .scalar 2] ["x", "y"] rfl rfl (by decide)

/-- C8: for a mapped vertex holding a structured baseline, when no mapped
child is dirty `getOutgoingData` returns the cached incoming value unchanged
and leaves the vertex dirty flag false and the children untouched; when at
least one mapped child is dirty, the vertex dirty flag becomes true and the
result is the re-encoded structure with each dirty child's outgoing value
spliced into its field slot (that child's dirty flag cleared) and all other
fields and children unchanged. -/
theorem getOutgoingData_frame (lookup : StructureLookup) (v : DataElementVertex)
    (tid : Nat) (fields : List UaVariant) (names : List String)
    (hin : v.incomingData = .extObj tid fields)
    (hdef : lookup tid = some ⟨false, names⟩)
    (hmapped : v.mapped = true)
    (halive : ∀ e ∈ v.elementMap, (v.elements.getD e.2 none).isSome = true)
    (hkeys : (v.elementMap.map Prod.fst).Nodup)
    (hpos : (v.elementMap.map Prod.snd).Nodup)
    (hidx : ∀ e ∈ v.elementMap, e.1 < fields.length) :
    ∃ v1 out, vertexGetOutgoingData lookup v = some (v1, out)
      ∧ (v.elementMap.all (fun e => ! childDirtyb v.elements e) = true →
           out = v.incomingData ∧ v1.outgoingData = v.incomingData
           ∧ v1.isdirty = false ∧ v1.elements = v.elements)
      ∧ (v.elementMap.any (childDirtyb v.elements) = true →
           v1.isdirty = true
           ∧ ∃ fs, out = .extObj tid fs ∧ v1.outgoingData = .extObj tid fs
              ∧ (∀ i j, (i, j) ∈ v.elementMap → ∀ c,
                   v.elements.getD j none = some c →
                   (c.isdirty = true → fs.getD i .null = c.outgoingData
                      ∧ v1.elements.getD j none = some { c with isdirty := false })
                   ∧ (c.isdirty = false → fs.getD i .null = fields.getD i .null
                      ∧ v1.elements.getD j none = some c))
              ∧ (∀ k, (∀ j, (k, j) ∉ v.elementMap) →
                   fs.getD k .null = fields.getD k .null)
              ∧ (∀ j, (∀ i, (i, j) ∉ v.elementMap) →
                   v1.elements.getD j none = v.elements.getD j none)) := by
  obtain ⟨fs', es', dirty', hrun, hflen, helen, hd', hclean', hentry', hkeys', hpos'⟩ :=
    encodeOutgoingAux_spec v.elementMap fields v.elements false halive hkeys hpos hidx
  have hcomp := vertexGetOutgoingData_run hin hdef hmapped hrun
  cases hdirty : v.elementMap.any (childDirtyb v.elements) with
  | false =>
    have hallc : v.elementMap.all (fun e => ! childDirtyb v.elements e) = true := by
      rw [List.all_eq_true]
      intro e he
      cases hce : childDirtyb v.elements e with
      | false => rfl
      | true =>
        have : v.elementMap.any (childDirtyb v.elements) = true :=
          List.any_eq_true.mpr ⟨e, he, hce⟩
        rw [this] at hdirty
        exact absurd hdirty (by simp)
    obtain ⟨hfs, hes⟩ := hclean' hallc
    have hd2 : dirty' = false := by
      rw [hd', hdirty]
      rfl
    rw [hd2] at hcomp
    simp only [Bool.false_eq_true, if_false] at hcomp
    refine ⟨_, _, hcomp, ?_, ?_⟩
    · intro _
      refine ⟨hin.symm, hin.symm, rfl, ?_⟩
      show es' = v.elements
      exact hes
    · intro habs
      exact absurd habs (by simp)
  | true =>
    have hd2 : dirty' = true := by
      rw [hd', hdirty]
      rfl
    rw [hd2] at hcomp
    simp only [eq_self_iff_true, if_true] at hcomp
    refine ⟨_, _, hcomp, ?_, ?_⟩
    · intro habs
      obtain ⟨e, he, hde⟩ := List.any_eq_true.mp hdirty
      have h2 := List.all_eq_true.mp habs e he
      rw [hde] at h2
      exact absurd h2 (by simp)
    · intro _
      exact ⟨rfl, fs', rfl, rfl, hentry', hkeys', hpos'⟩

/-- C8 (witness): vertex with one dirty child "x" (outgoing value 5) and one
clean child "y" under baseline fields [1, 2]: the dirty fan-in branch of the
frame theorem applies at this concrete state. -/
theorem getOutgoingData_frame_witness :
    ∃ v1 out, vertexGetOutgoingData
        (fun t => if t = 7 then some ⟨false, ["x", "y"]⟩ else none)
        ⟨"v", .extObj 7 [.scalar 1, .scalar 2], .null, false,
         [some ⟨"x", .null, true, .scalar 5⟩, some ⟨"y", .null, false, .scalar 9⟩],
         [(0, 0), (1, 1)], true⟩ = some (v1, out)
      ∧ (([(0, 0), (1, 1)] : List (Nat × Nat)).all
            (fun e => ! childDirtyb
              [some ⟨"x", .null, true, .scalar 5⟩, some ⟨"y", .null, false, .scalar 9⟩] e)
              = true →
           out = UaVariant.extObj 7 [.scalar 1, .scalar 2]
           ∧ v1.outgoingData = UaVariant.extObj 7 [.scalar 1, .scalar 2]
           ∧ v1.isdirty = false
           ∧ v1.elements
               = [some ⟨"x", .null, true, .scalar 5⟩, some ⟨"y", .null, false, .scalar 9⟩])
      ∧ (([(0, 0), (1, 1)] : List (Nat × Nat)).any
            (childDirtyb
              [some ⟨"x", .null, true, .scalar 5⟩, some ⟨"y", .null, false, .scalar 9⟩])
              = true →
           v1.isdirty = true
           ∧ ∃ fs, out = .extObj 7 fs ∧ v1.outgoingData = .extObj 7 fs
              ∧ (∀ i j, (i, j) ∈ ([(0, 0), (1, 1)] : List (Nat × Nat)) → ∀ c,
                   ([some ⟨"x", .null, true, .scalar 5⟩,
                     some ⟨"y", .null, false, .scalar 9⟩] :
                       List (Option ChildRef)).getD j none = some c →
                   (c.isdirty = true → fs.getD i .null = c.outgoingData
                      ∧ v1.elements.getD j none = some { c with isdirty := false })
                   ∧ (c.isdirty = false →
                      fs.getD i .null
                        = ([UaVariant.scalar 1, UaVariant.scalar 2] :
                            List UaVariant).getD i .null
                      ∧ v1.elements.getD j none = some c))
              ∧ (∀ k, (∀ j, (k, j) ∉ ([(0, 0), (1, 1)] : List (Nat × Nat))) →
                   fs.getD k .null
                     = ([UaVariant.scalar 1, UaVariant.scalar 2] :
                         List UaVariant).getD k .null)
              ∧ (∀ j, (∀ i, (i, j) ∉ ([(0, 0), (1, 1)] : List (Nat × Nat))) →
                   v1.elements.getD j none
                     = ([some ⟨"x", .null, true, .scalar 5⟩,
                         some ⟨"y", .null, false, .scalar 9⟩] :
                           List (Option ChildRef)).getD j none)) :=
  getOutgoingData_frame
    (fun t => if t = 7 then some ⟨false, ["x", "y"]⟩ else none)
    ⟨"v", .extObj 7 [.scalar 1, .scalar 2], .null, false,
     [some ⟨"x", .null, true, .scalar 5⟩, some ⟨"y", .null, false, .scalar 9⟩],
     [(0, 0), (1, 1)], true⟩
    7 [.scalar 1, .scalar 2] ["x", "y"]
    rfl rfl rfl (by decide) (by decide) (by decide) (by decide)

/-- C4 (failing input): with the separator at string position 0 both splitting
routines probe one character left of index 0 — the model reports the
out-of-bounds access.  The claim that position 0 is treated as not escaped
and never read out of bounds fails on this input. -/
theorem splitName_oob_at_position_zero :
    splitLastName (".abc".toList) '.' = .oob
    ∧ splitFirstName (".abc".toList) '.' = .oob := by
  refine ⟨by decide, by decide⟩

end DevOpcua
